import Mathlib

/-!
Verification development for the deltafs plfsio write/read core.

The definitions below shallowly embed the C++ sources of the repository:
BufferedBlockWriter / BufferedBlockReader (src/src/libdeltafs/plfsio/v1/pdb.cc),
the LogSink write path (src/unnamed/part_001), and the filter layer exercised by
the tests in src/unnamed/part_002.  Byte strings are lists of naturals
(each byte taken modulo 256 where it matters); machine 64-bit quantities are
naturals reduced modulo 2^64 at the encoding boundary.  Components of the
repository whose implementation files are not part of the source snapshot
(the DoubleBuffering template, the block builder, the Bloom and Cuckoo filter
implementations) are modelled from the specification, as marked in their
doc comments.
-/

namespace Plfsio

/-- Status kinds used by the pdlfs core (error taxonomy of the spec). -/
inductive Status where
  | ok : Status
  | notFound : Status
  | corruption : String → Status
  | ioError : String → Status
  | disconnected : String → Status
deriving DecidableEq

/-- Byte strings: each element is one byte. -/
abbrev Bytes := List Nat

/-- Read the byte at index i, 0 when out of range (models raw pointer reads
into a buffer whose bounds the C code has already checked). -/
def byteAt (bs : Bytes) (i : Nat) : Nat := bs.getD i 0

/-- PutFixed64: little-endian 64-bit encoding (as in pdlfs coding.h,
used by pdb.cc for the index stripe). Only the low 64 bits of n survive. -/
def putFixed64 (n : Nat) : Bytes :=
  [n % 256, n / 2 ^ 8 % 256, n / 2 ^ 16 % 256, n / 2 ^ 24 % 256,
   n / 2 ^ 32 % 256, n / 2 ^ 40 % 256, n / 2 ^ 48 % 256, n / 2 ^ 56 % 256]

/-- PutFixed32: little-endian 32-bit encoding. -/
def putFixed32 (n : Nat) : Bytes :=
  [n % 256, n / 2 ^ 8 % 256, n / 2 ^ 16 % 256, n / 2 ^ 24 % 256]

/-- DecodeFixed64 at a byte offset inside a buffer
(models DecodeFixed64 of a raw pointer in BufferedBlockReader::Get). -/
def decodeFixed64At (bs : Bytes) (p : Nat) : Nat :=
  byteAt bs p + byteAt bs (p + 1) * 2 ^ 8 + byteAt bs (p + 2) * 2 ^ 16 +
    byteAt bs (p + 3) * 2 ^ 24 + byteAt bs (p + 4) * 2 ^ 32 +
    byteAt bs (p + 5) * 2 ^ 40 + byteAt bs (p + 6) * 2 ^ 48 +
    byteAt bs (p + 7) * 2 ^ 56

/-- Fuel-indexed varint encoder body; the fuel only drives the structural
recursion and n itself is always a sufficient amount of fuel. -/
def varintEncAux : Nat → Nat → Bytes
  | 0, n => [n]
  | fuel + 1, n =>
    if n < 128 then [n]
    else (n % 128 + 128) :: varintEncAux fuel (n / 128)

/-- Varint encoding (little-endian 7-bit groups, as in pdlfs coding.h;
modelled here on unbounded naturals, the repository only encodes
64-bit quantities which the callers bound). -/
def varintEnc (n : Nat) : Bytes := varintEncAux n n

/-- Varint decoding; returns the value and the remaining bytes. -/
def varintDec : Bytes → Option (Nat × Bytes)
  | [] => none
  | b :: rest =>
    if b < 128 then some (b, rest)
    else
      match varintDec rest with
      | some (m, r) => some (b - 128 + 128 * m, r)
      | none => none

/-! ## Bloom filter (modelled from the spec, section 4.3.1: the BloomBlock
and BloomKeyMayMatch implementation files are not under src/) -/

/-- Modelled from the spec: the fixed seeded hash mixer used by the Bloom
filter.  Only the fact that building and querying use the same mixer matters
for the claims, so a concrete executable hash is chosen. -/
def bloomHash (key : Bytes) : Nat :=
  key.foldl (fun h b => (h * 33 + b % 256 + 1) % 2 ^ 32) 5381

/-- Modelled from the spec: per-probe increment (a rotation of the hash). -/
def bloomDelta (h : Nat) : Nat :=
  (h / 2 ^ 17 + h % 2 ^ 17 * 2 ^ 15) % 2 ^ 32

/-- Number of probe hashes for a bits-per-key setting, clamped to [1, 30];
the finished blob records it in its final byte. -/
def bloomNumProbes (bitsPerKey : Nat) : Nat :=
  min 30 (max 1 (bitsPerKey * 69 / 100))

/-- The bit positions one key probes in a filter with the given bit count. -/
def bloomProbes (bits k : Nat) (key : Bytes) : List Nat :=
  (List.range k).map
    (fun j => (bloomHash key + j * bloomDelta (bloomHash key)) % 2 ^ 32 % bits)

/-- Set one bit of a little-endian bit array stored in bytes. -/
def setBit (arr : Bytes) (pos : Nat) : Bytes :=
  arr.set (pos / 8) (byteAt arr (pos / 8) ||| 2 ^ (pos % 8))

/-- Test one bit of a little-endian bit array stored in bytes. -/
def getBit (arr : Bytes) (pos : Nat) : Bool :=
  Nat.testBit (byteAt arr (pos / 8)) (pos % 8)

/-- Modelled from the spec: BloomBlock::AddKey sets every probe bit. -/
def bloomAddKey (bits k : Nat) (arr : Bytes) (key : Bytes) : Bytes :=
  (bloomProbes bits k key).foldl setBit arr

/-- Modelled from the spec: BloomBlock::Finish emits the bit array
(max(64, n * bits_per_key) bits rounded up to whole bytes) followed by the
probe-count byte. -/
def bloomFinish (bitsPerKey : Nat) (keys : List Bytes) : Bytes :=
  let nbytes := (max 64 (keys.length * bitsPerKey) + 7) / 8
  let bits := nbytes * 8
  keys.foldl (bloomAddKey bits (bloomNumProbes bitsPerKey))
    (List.replicate nbytes 0) ++ [bloomNumProbes bitsPerKey]

/-- Modelled from the spec: BloomKeyMayMatch reads the probe count from the
final byte of the blob, rejects blobs shorter than two bytes, accepts
whenever the recorded count exceeds 30, and otherwise requires every probe
bit to be set. -/
def bloomKeyMayMatch (key blob : Bytes) : Bool :=
  if blob.length < 2 then false
  else if 30 < byteAt blob (blob.length - 1) then true
  else
    (bloomProbes ((blob.length - 1) * 8) (byteAt blob (blob.length - 1))
      key).all (fun p => getBit blob p)

/-! ## Cuckoo filter (modelled from the spec, section 4.3.2: cuckoo.h is
included by the tests under src/ but its implementation file is not under
src/).  Buckets hold up to four fingerprint slots; insertion tries the two
home buckets, then runs an eviction chain whose slot picks are drawn from an
explicit choice stream, and on exhaustion spills into a fresh auxiliary
table, placing the in-hand fingerprint at its current (alternate) bucket. -/

/-- Modelled from the spec: the b-bit fingerprint of a hash, wrapped to be
non-zero. -/
def cuckooFp (h b : Nat) : Nat :=
  if h % 2 ^ b = 0 then 1 else h % 2 ^ b

/-- Modelled from the spec: the hash of a fingerprint used to derive the
alternate bucket index.  Only determinism matters for the claims. -/
def fpHash (fp : Nat) : Nat :=
  (fp * 2654435761 + 97) % 2 ^ 32

/-- Alternate bucket index: XOR with the fingerprint hash, modulo the
bucket count. -/
def cuckooAlt (i fp m : Nat) : Nat :=
  (i ^^^ fpHash fp) % m

/-- Fingerprint of a key. -/
def fpOf (b : Nat) (k : Bytes) : Nat :=
  cuckooFp (bloomHash k) b

/-- First home bucket of a key. -/
def i1Of (m : Nat) (k : Bytes) : Nat :=
  bloomHash k % m

/-- Second home bucket of a key. -/
def i2Of (b m : Nat) (k : Bytes) : Nat :=
  cuckooAlt (i1Of m k) (fpOf b k) m

/-- Bucket i of a table (empty when out of range). -/
def bucketAt (t : List (List Nat)) (i : Nat) : List Nat :=
  t.getD i []

/-- A fresh table of m empty buckets. -/
def emptyTable (m : Nat) : List (List Nat) :=
  List.replicate m []

/-- Builder state: the frozen auxiliary tables plus the current table. -/
structure CuckooState where
  frozen : List (List (List Nat))
  cur : List (List Nat)

/-- All tables of a builder state, in emission order. -/
def allTables (st : CuckooState) : List (List (List Nat)) :=
  st.frozen ++ [st.cur]

/-- Initial builder state: no frozen tables, one empty table. -/
def cuckooInit (m : Nat) : CuckooState :=
  ⟨[], emptyTable m⟩

/-- Modelled from the spec: the eviction chain.  At the current bucket,
place the in-hand fingerprint if a slot is free; otherwise swap it with the
slot picked by the choice stream and continue with the evicted fingerprint
at its alternate bucket.  Returns the updated table and, when the moves are
exhausted, the fingerprint still in hand with its current bucket index. -/
def evictChain : Nat → List Nat → List (List Nat) → Nat → Nat → Nat →
    List (List Nat) × Option (Nat × Nat)
  | 0, _, t, fp, i, _ => (t, some (fp, i))
  | fuel + 1, cs, t, fp, i, m =>
    if (bucketAt t i).length < 4 then
      (t.set i (fp :: bucketAt t i), none)
    else
      evictChain fuel cs.tail
        (t.set i ((bucketAt t i).set (cs.headD 0 % (bucketAt t i).length) fp))
        ((bucketAt t i).getD (cs.headD 0 % (bucketAt t i).length) 0)
        (cuckooAlt i
          ((bucketAt t i).getD (cs.headD 0 % (bucketAt t i).length) 0) m)
        m

/-- Modelled from the spec: per-key insertion.  Try the two home buckets;
if both are full run the eviction chain from the second home; if the chain
exhausts its moves, freeze the current table and start a fresh auxiliary
table holding the in-hand fingerprint at its current bucket. -/
def cuckooInsert (b m maxMoves : Nat) (cs : List Nat) (st : CuckooState)
    (k : Bytes) : CuckooState :=
  if (bucketAt st.cur (i1Of m k)).length < 4 then
    ⟨st.frozen,
     st.cur.set (i1Of m k) (fpOf b k :: bucketAt st.cur (i1Of m k))⟩
  else if (bucketAt st.cur (i2Of b m k)).length < 4 then
    ⟨st.frozen,
     st.cur.set (i2Of b m k) (fpOf b k :: bucketAt st.cur (i2Of b m k))⟩
  else
    match evictChain maxMoves cs st.cur (fpOf b k) (i2Of b m k) m with
    | (t2, none) => ⟨st.frozen, t2⟩
    | (t2, some fi) => ⟨st.frozen ++ [t2], (emptyTable m).set fi.2 [fi.1]⟩

/-- Build a filter by inserting the keys in order, one choice stream per
key. -/
def cuckooBuild (b m maxMoves : Nat) :
    List (List Nat) → List Bytes → CuckooState → CuckooState
  | _, [], st => st
  | css, k :: ks, st =>
    cuckooBuild b m maxMoves css.tail ks
      (cuckooInsert b m maxMoves (css.headD []) st k)

/-- Modelled from the spec: CuckooKeyMayMatch scans every table and reports
a match iff some slot of either home bucket holds the key fingerprint. -/
def cuckooKeyMayMatch (b m : Nat) (tables : List (List (List Nat)))
    (k : Bytes) : Bool :=
  tables.any (fun t =>
    decide (fpOf b k ∈ bucketAt t (i1Of m k)) ||
    decide (fpOf b k ∈ bucketAt t (i2Of b m k)))

/-- A bucket index is a home of a key. -/
def isHome (b m : Nat) (k : Bytes) (i : Nat) : Prop :=
  i = i1Of m k ∨ i = i2Of b m k

/-- The key fingerprint sits in one of its home buckets of this table. -/
def goodOne (b m : Nat) (t : List (List Nat)) (k : Bytes) : Prop :=
  fpOf b k ∈ bucketAt t (i1Of m k) ∨ fpOf b k ∈ bucketAt t (i2Of b m k)

/-- Some table of the sequence holds the key fingerprint at a home bucket. -/
def cuckooGood (b m : Nat) (tables : List (List (List Nat))) (k : Bytes) :
    Prop :=
  ∃ t ∈ tables, goodOne b m t k

/-! ## Block format (modelled from the spec, sections 4.2 and 6: the block
builder and block iterator implementation files are not under src/.
pdb.cc forces the unordered format, so records are length-prefixed and
seeking with a NULL comparator is a linear scan for an exactly equal key.) -/

/-- One length-prefixed record: varint key length, varint value length,
then the key and value bytes. -/
def entryEnc (e : Bytes × Bytes) : Bytes :=
  varintEnc e.1.length ++ varintEnc e.2.length ++ e.1 ++ e.2

/-- Modelled from the spec: a stand-in for the CRC32C hash of the block
trailer (no claim depends on the concrete polynomial, only on the writer and
the reader agreeing on the trailer size and contents). -/
def crcModel (bs : Bytes) : Nat :=
  bs.foldl (fun a b => (a * 131 + b % 256 + 17) % 2 ^ 32) 0

/-- The castagnoli mask of the spec: rotate right by 15 and add the fixed
constant, in 32-bit arithmetic. -/
def crcMask (c : Nat) : Nat :=
  (c / 2 ^ 15 + c % 2 ^ 15 * 2 ^ 17 + 0xa282ead8) % 2 ^ 32

/-- Modelled from the spec: BlockBuf::Finish for the unordered format: the
concatenated records, the compression-type byte (kNoCompression = 0), and
the masked CRC32C of payload-plus-type as a little-endian 32-bit word. -/
def blockFinish (entries : List (Bytes × Bytes)) : Bytes :=
  (entries.map entryEnc).flatten ++ [0] ++
    putFixed32 (crcMask (crcModel ((entries.map entryEnc).flatten ++ [0])))

/-- Parse the length-prefixed records of a block payload (fuel-indexed; the
callers pass the payload length, which bounds the number of records). -/
def parseEntries (fuel : Nat) (bs : Bytes) : Option (List (Bytes × Bytes)) :=
  match fuel with
  | 0 => if bs = [] then some [] else none
  | fuel + 1 =>
    if bs = [] then some []
    else
      match varintDec bs with
      | none => none
      | some (kl, r1) =>
        match varintDec r1 with
        | none => none
        | some (vl, r2) =>
          if kl + vl ≤ r2.length then
            match parseEntries fuel (r2.drop (kl + vl)) with
            | none => none
            | some es => some ((r2.take kl, (r2.drop kl).take vl) :: es)
          else none

/-- Modelled from the spec: constructing a Block over the raw contents and
seeking with a NULL comparator — strip the five trailer bytes, parse the
records, and linearly scan for the first record whose key equals k,
returning its value. -/
def blockSeek (k : Bytes) (contents : Bytes) : Option Bytes :=
  match parseEntries (contents.take (contents.length - 5)).length
      (contents.take (contents.length - 5)) with
  | some es => (es.find? (fun e => decide (e.1 = k))).map Prod.snd
  | none => none

/-! ## LogSink (src/unnamed/part_001) -/

/-- Outcomes the underlying WritableFile returns for the calls a single
LogSink operation makes (Append, Flush, Sync). -/
structure FileEnv where
  appendSt : Status
  flushSt : Status
  syncSt : Status

/-- LogSink state: whether the current file handle is live
(file_ != NULL), the bytes appended so far, and the logical write offset
off_ (a uint64 in the source; kept as an unbounded natural here because
the offset only ever grows by the size of data actually written). -/
structure LogSink where
  fileOpen : Bool
  data : Bytes
  off : Nat
deriving DecidableEq

/-- LogSink::Ltell — return the current logic write offset. -/
def LogSink.Ltell (s : LogSink) : Nat := s.off

/-- LogSink::Lwrite (src/unnamed/part_001 lines 129-146): fails with
Disconnected when the log is closed; otherwise Append then Flush, and only
when both succeed is off_ advanced by the data size. -/
def LogSink.Lwrite (env : FileEnv) (s : LogSink) (dat : Bytes) : Status × LogSink :=
  if s.fileOpen = false then
    (Status.disconnected "Log already closed", s)
  else
    if env.appendSt = Status.ok then
      let s1 : LogSink := { s with data := s.data ++ dat }
      if env.flushSt = Status.ok then
        (Status.ok, { s1 with off := s1.off + dat.length })
      else
        (env.flushSt, s1)
    else
      (env.appendSt, s)

/-- LogSink::Lsync (src/unnamed/part_001 lines 152-159). -/
def LogSink.Lsync (env : FileEnv) (s : LogSink) : Status × LogSink :=
  if s.fileOpen = false then
    (Status.disconnected "Log already closed", s)
  else
    (env.syncSt, s)

/-- Modelled from the spec: LogSink::Lclose and LogSink::Finish are declared
but their bodies are not under src/; part_001 documents that file_ is NULL
after Finish, and the spec says close transitions the sink to a disconnected
state while leaving the logical offset readable. -/
def LogSink.Lclose (s : LogSink) : LogSink := { s with fileOpen := false }

/-! ## BufferedBlockWriter constructor (pdb.cc lines 17-43) -/

/-- The buffer bookkeeping the BufferedBlockWriter constructor sets up:
the number of allocated block buffers n_, the index of the buffer designated
as membuf_, and the indices pushed onto the free list bufs_. -/
structure WriterBufs where
  nBufs : Nat
  membufIdx : Nat
  freeIdxs : List Nat
deriving DecidableEq

/-- BufferedBlockWriter constructor: bump n to at least 2, allocate n_
buffers, push every buffer except bbs_[0] onto the free list, and make
bbs_[0] the membuf. -/
def mkBufferedBlockWriter (n : Nat) : WriterBufs :=
  let n2 := if n < 2 then 2 else n
  { nBufs := n2
    membufIdx := 0
    freeIdxs := (List.range n2).filter (fun i => decide (i ≠ 0)) }

/-! ## Close / DumpIndexesAndFilters error flow (pdb.cc lines 150-213) -/

/-- The backend (dst_) calls BufferedBlockWriter::Close may issue, in
program order. -/
inductive BackendOp where
  | appendFilter : BackendOp
  | appendIndex : BackendOp
  | appendFooter : BackendOp
  | sync : BackendOp
  | closeDst : BackendOp
deriving DecidableEq

/-- Outcomes of each potential backend call during Close. -/
structure CloseEnv where
  appendFilterSt : Status
  appendIndexSt : Status
  appendFooterSt : Status
  syncSt : Status
  closeSt : Status

/-- BufferedBlockWriter::DumpIndexesAndFilters control flow (pdb.cc lines
152-176): append the filter stream only when it is non-empty, then append the
index stream only when the previous step succeeded.  (The index stream is
never empty at this point: the sentinel pair has just been appended to it.)
Returns the resulting status and the backend calls attempted. -/
def dumpIndexesAndFilters (env : CloseEnv) (filterEmpty : Bool) :
    Status × List BackendOp :=
  let stepFilter : Status × List BackendOp :=
    if filterEmpty then (Status.ok, [])
    else (env.appendFilterSt, [BackendOp.appendFilter])
  if stepFilter.1 = Status.ok then
    (env.appendIndexSt, stepFilter.2 ++ [BackendOp.appendIndex])
  else
    stepFilter

/-- BufferedBlockWriter::Close control flow (pdb.cc lines 180-200): dump the
index and filter streams; only on success append the footer; only on success
Sync the destination and then Close it, discarding the Close return value. -/
def closeWriter (env : CloseEnv) (filterEmpty : Bool) : Status × List BackendOp :=
  let dump := dumpIndexesAndFilters env filterEmpty
  if dump.1 = Status.ok then
    if env.appendFooterSt = Status.ok then
      (env.syncSt, dump.2 ++ [BackendOp.appendFooter, BackendOp.sync, BackendOp.closeDst])
    else
      (env.appendFooterSt, dump.2 ++ [BackendOp.appendFooter])
  else
    dump

/-- First non-OK status of a list, OK when all are OK. -/
def firstErr (l : List Status) : Status :=
  (l.find? (fun s => decide (s ≠ Status.ok))).getD Status.ok

/-- The statuses of the backend steps Close would run if nothing failed, in
program order (filter-stream append only when the stream is non-empty). -/
def plannedSts (env : CloseEnv) (filterEmpty : Bool) : List Status :=
  (if filterEmpty then [] else [env.appendFilterSt]) ++
    [env.appendIndexSt, env.appendFooterSt, env.syncSt]

/-! ## The compaction ticket order barrier (pdb.cc lines 128-133) -/

/-- Shared state of the concurrent compaction tasks: the tickets
(compac_seq values) whose append has not happened yet, the counter
num_compac_completed_, and the order in which blocks were appended to dst_. -/
structure TicketState where
  pending : List Nat
  completed : Nat
  appended : List Nat
deriving DecidableEq

/-- One scheduling step.  A compaction task holding ticket t may append its
block only after passing the barrier in pdb.cc lines 128-133, which waits
until num_compac_completed_ + 1 == t; afterwards the completion counter
advances to t (spec step 4 of the compaction task body; the counter update
lives in the DoubleBuffering template, which is not under src/). -/
inductive TicketStep : TicketState → TicketState → Prop where
  | append (s : TicketState) (t : Nat) (hmem : t ∈ s.pending)
      (hbarrier : t = s.completed + 1) :
      TicketStep s
        { pending := s.pending.erase t
          completed := t
          appended := s.appended ++ [t] }

/-- Initial writer state: no compaction has completed, nothing appended. -/
def ticketInit (tickets : List Nat) : TicketState :=
  { pending := tickets, completed := 0, appended := [] }

/-! ## BufferedBlockWriter data path (pdb.cc), sequential execution -/

/-- Writer state: the active membuf records, the in-memory index stripe
(indexes_), the in-memory filter stream (bloomfilter_), the bytes appended
to dst_, and the data offset (offset_). -/
structure WState where
  membuf : List (Bytes × Bytes)
  indexes : Bytes
  bloomfilter : Bytes
  dst : Bytes
  offset : Nat
deriving DecidableEq

/-- Constructor state: everything empty. -/
def wInit : WState := ⟨[], [], [], [], 0⟩

/-- BufferedBlockWriter::Compact (pdb.cc 99-148) applied to one immutable
buffer, in the sequential (inline compaction) execution where every
compaction is next in ticket order: empty buffers are skipped; otherwise the
block and its Bloom filter (when bf_bits_per_key is non-zero) are built, the
pair (current filter-stream size, current data offset) is appended to the
index stripe as two fixed64 values, the filter stripe is appended to the
filter stream and the block contents to dst, and the offset advances by the
block size. -/
def wCompact (bfBits : Nat) (s : WState) (bb : List (Bytes × Bytes)) :
    WState :=
  if bb = [] then s
  else
    { s with
      indexes := s.indexes ++ putFixed64 s.bloomfilter.length ++
        putFixed64 s.offset
      bloomfilter := s.bloomfilter ++
        (if bfBits ≠ 0 then bloomFinish bfBits (bb.map Prod.fst) else [])
      dst := s.dst ++ blockFinish bb
      offset := s.offset + (blockFinish bb).length }

/-- The byte-size estimate the rotation threshold is compared against. -/
def bufBytes (l : List (Bytes × Bytes)) : Nat :=
  (l.map (fun x => x.1.length + x.2.length)).sum

/-- Modelled from the spec (section 4.4; the DoubleBuffering __Add template
is not under src/): Add appends the record to the membuf and rotates the
buffer into a compaction when the buffer size reaches the threshold. -/
def wAdd (bfBits threshold : Nat) (s : WState) (e : Bytes × Bytes) : WState :=
  if threshold ≤ bufBytes (s.membuf ++ [e]) then
    wCompact bfBits { s with membuf := [] } (s.membuf ++ [e])
  else
    { s with membuf := s.membuf ++ [e] }

/-- Run a sequence of Add calls from the initial writer state. -/
def wWrite (bfBits threshold : Nat) (ops : List (Bytes × Bytes)) : WState :=
  ops.foldl (wAdd bfBits threshold) wInit

/-- Modelled from the spec: Flush rotates a non-empty membuf. -/
def wFlush (bfBits : Nat) (s : WState) : WState :=
  if s.membuf = [] then s
  else wCompact bfBits { s with membuf := [] } s.membuf

/-- BufferedBlockWriter::DumpIndexesAndFilters (pdb.cc 152-176), data part:
append the sentinel pair to the index stripe, record the filter-stream
handle, append the filter stream and then the index stripe to dst, advancing
the offset past each.  Returns the new state together with the filter-stream
and index-stream block handles (offset, size). -/
def wDump (s : WState) : WState × ((Nat × Nat) × (Nat × Nat)) :=
  ({ s with
      indexes := s.indexes ++ putFixed64 s.bloomfilter.length ++
        putFixed64 s.offset
      dst := s.dst ++ s.bloomfilter ++
        (s.indexes ++ putFixed64 s.bloomfilter.length ++ putFixed64 s.offset)
      offset := s.offset + s.bloomfilter.length +
        (s.indexes ++ putFixed64 s.bloomfilter.length ++
          putFixed64 s.offset).length },
   ((s.offset, s.bloomfilter.length),
    (s.offset + s.bloomfilter.length,
     (s.indexes ++ putFixed64 s.bloomfilter.length ++
       putFixed64 s.offset).length)))

/-- BlockHandle::kMaxEncodedLength: two varint64 fields of max 10 bytes. -/
def kMaxEncodedLength : Nat := 20

/-- BlockHandle::EncodeTo: varint offset then varint size (the spec footer
layout; the BlockHandle implementation is not under src/). -/
def handleEnc (h : Nat × Nat) : Bytes := varintEnc h.1 ++ varintEnc h.2

/-- The footer: the two encoded handles resized (zero-padded or truncated)
to 2 * BlockHandle::kMaxEncodedLength bytes, as Close does with
footer.resize. -/
def footerBytes (bh ih : Nat × Nat) : Bytes :=
  (handleEnc bh ++ handleEnc ih ++
    List.replicate (2 * kMaxEncodedLength) 0).take (2 * kMaxEncodedLength)

/-- BufferedBlockWriter::Close (pdb.cc 180-200), data part: dump indexes and
filters, then append the footer. -/
def wClose (s : WState) : WState :=
  { (wDump s).1 with
    dst := (wDump s).1.dst ++ footerBytes (wDump s).2.1 (wDump s).2.2 }

/-- Finish (spec section 4.4; the DoubleBuffering __Finish template is not
under src/): rotate any remaining membuf into a final compaction, drain, and
close via SyncBackend(true). -/
def wFinish (bfBits : Nat) (s : WState) : WState := wClose (wFlush bfBits s)

/-- The writer pipeline end to end: a sequence of Adds then Finish. -/
def writerRun (bfBits threshold : Nat) (ops : List (Bytes × Bytes)) : WState :=
  wFinish bfBits (wWrite bfBits threshold ops)

/-! ### Closed-form description of the sequential writer -/

/-- One step of the buffer chunking induced by the rotation threshold. -/
def chunkStep (threshold : Nat)
    (acc : List (List (Bytes × Bytes)) × List (Bytes × Bytes))
    (e : Bytes × Bytes) : List (List (Bytes × Bytes)) × List (Bytes × Bytes) :=
  if threshold ≤ bufBytes (acc.2 ++ [e]) then (acc.1 ++ [acc.2 ++ [e]], [])
  else (acc.1, acc.2 ++ [e])

/-- The rotated buffers and the still-active membuf after a sequence of
Adds. -/
def chunksOf (threshold : Nat) (ops : List (Bytes × Bytes)) :
    List (List (Bytes × Bytes)) × List (Bytes × Bytes) :=
  ops.foldl (chunkStep threshold) ([], [])

/-- All blocks the writer emits for an operation sequence: the rotated
buffers plus the final non-empty membuf that Finish flushes. -/
def allBlocks (threshold : Nat) (ops : List (Bytes × Bytes)) :
    List (List (Bytes × Bytes)) :=
  (chunksOf threshold ops).1 ++
    (if (chunksOf threshold ops).2 = [] then []
     else [(chunksOf threshold ops).2])

/-- The filter stripe of one block. -/
def filterOf (bfBits : Nat) (bb : List (Bytes × Bytes)) : Bytes :=
  if bfBits ≠ 0 then bloomFinish bfBits (bb.map Prod.fst) else []

/-- The data stream: concatenation of the finished blocks. -/
def dstOfBlks (blks : List (List (Bytes × Bytes))) : Bytes :=
  (blks.map blockFinish).flatten

/-- The filter stream: concatenation of the filter stripes. -/
def filtOfBlks (bfBits : Nat) (blks : List (List (Bytes × Bytes))) : Bytes :=
  (blks.map (filterOf bfBits)).flatten

/-- The index-stripe pairs recorded during compaction: entry i is the pair
(filter-stream size, data offset) at the moment block i is about to be
appended.  Only the first n entries exist before Close. -/
def midPairs (bfBits : Nat) (blks : List (List (Bytes × Bytes))) :
    List (Nat × Nat) :=
  (List.range blks.length).map
    (fun i => ((filtOfBlks bfBits (blks.take i)).length,
               (dstOfBlks (blks.take i)).length))

/-- The full index stripe after Close: one pair per block plus the final
sentinel pair, n + 1 entries for n blocks. -/
def pairsOf (bfBits : Nat) (blks : List (List (Bytes × Bytes))) :
    List (Nat × Nat) :=
  (List.range (blks.length + 1)).map
    (fun i => ((filtOfBlks bfBits (blks.take i)).length,
               (dstOfBlks (blks.take i)).length))

/-- Fixed64 encoding of an index-pair list. -/
def pairsEnc (ps : List (Nat × Nat)) : Bytes :=
  (ps.map (fun p => putFixed64 p.1 ++ putFixed64 p.2)).flatten

/-- The writer state determined by a chunking accumulator. -/
def stateOf (bfBits : Nat)
    (p : List (List (Bytes × Bytes)) × List (Bytes × Bytes)) : WState :=
  { membuf := p.2
    indexes := pairsEnc (midPairs bfBits p.1)
    bloomfilter := filtOfBlks bfBits p.1
    dst := dstOfBlks p.1
    offset := (dstOfBlks p.1).length }

/-- The on-disk layout of the finished file. -/
def layoutFile (bfBits : Nat) (blks : List (List (Bytes × Bytes))) : Bytes :=
  dstOfBlks blks ++ filtOfBlks bfBits blks ++ pairsEnc (pairsOf bfBits blks) ++
    footerBytes ((dstOfBlks blks).length, (filtOfBlks bfBits blks).length)
      ((dstOfBlks blks).length + (filtOfBlks bfBits blks).length,
       (pairsEnc (pairsOf bfBits blks)).length)

/-! ## BufferedBlockReader (pdb.cc 252-382) -/

/-- A positional read from the source file: RandomAccessFile::Read returns
the bytes at [off, off+n), short when the file ends earlier.  (The
environment-level status is OK; the reader detects short reads itself.) -/
def readRaw (file : Bytes) (off n : Nat) : Bytes := (file.drop off).take n

/-- Reader cache state: cache_status_, cache_contents_, and the indexes_ and
bloomfilter_ slices of the cache. -/
structure RState where
  cacheStatus : Status
  cacheContents : Bytes
  indexes : Bytes
  bloomfilter : Bytes
deriving DecidableEq

/-- Freshly constructed reader: an OK status and empty cache. -/
def rInit : RState := ⟨Status.ok, [], [], []⟩

/-- BlockHandle::DecodeFrom: varint offset then varint size (the spec footer
layout; the BlockHandle implementation is not under src/). -/
def handleDec (bs : Bytes) : Option ((Nat × Nat) × Bytes) :=
  match varintDec bs with
  | none => none
  | some (off, r1) =>
    match varintDec r1 with
    | none => none
    | some (sz, r2) => some ((off, sz), r2)

/-- BufferedBlockReader::LoadIndexesAndFilters (pdb.cc 318-351): decode the
two block handles from the footer, read the filter and index streams in one
read, slice indexes_ (drop the filter bytes) and bloomfilter_ (drop the
index suffix), and require at least 16 index bytes.  Every outcome is
latched into cache_status_.  Also returns the positional reads issued. -/
def loadIndexesAndFilters (file : Bytes) (s : RState) (footer : Bytes) :
    RState × List (Nat × Nat) :=
  match handleDec footer with
  | none => ({ s with cacheStatus := Status.corruption "bad block handle" }, [])
  | some (bh, rest) =>
    match handleDec rest with
    | none =>
      ({ s with cacheStatus := Status.corruption "bad block handle" }, [])
    | some (ih, _) =>
      let contents := readRaw file bh.1 (bh.2 + ih.2)
      if contents.length ≠ bh.2 + ih.2 then
        ({ s with cacheContents := contents,
                  cacheStatus := Status.ioError "Read ret partial data" },
         [(bh.1, bh.2 + ih.2)])
      else
        if (contents.drop bh.2).length < 16 then
          ({ s with cacheContents := contents,
                    indexes := contents.drop bh.2,
                    bloomfilter := contents.take (contents.length - ih.2),
                    cacheStatus :=
                      Status.corruption "Indexes too short to be valid" },
           [(bh.1, bh.2 + ih.2)])
        else
          ({ s with cacheContents := contents,
                    indexes := contents.drop bh.2,
                    bloomfilter := contents.take (contents.length - ih.2),
                    cacheStatus := Status.ok },
           [(bh.1, bh.2 + ih.2)])

/-- BufferedBlockReader::MaybeLoadCache (pdb.cc 355-382): do not repeat
previous efforts — return immediately once cache_status_ is non-OK or the
cache is populated; otherwise read and decode the footer and load the
indexes and filters.  Also returns the positional reads issued. -/
def maybeLoadCache (file : Bytes) (srcSz : Nat) (s : RState) :
    RState × List (Nat × Nat) :=
  if s.cacheStatus ≠ Status.ok ∨ s.cacheContents ≠ [] then (s, [])
  else
    if srcSz < 2 * kMaxEncodedLength then
      ({ s with cacheStatus :=
          Status.corruption "Input file too short for a footer" }, [])
    else
      let footer := readRaw file (srcSz - 2 * kMaxEncodedLength)
        (2 * kMaxEncodedLength)
      if footer.length ≠ 2 * kMaxEncodedLength then
        ({ s with cacheStatus := Status.ioError "Read ret partial data" },
         [(srcSz - 2 * kMaxEncodedLength, 2 * kMaxEncodedLength)])
      else
        let r := loadIndexesAndFilters file s footer
        (r.1, (srcSz - 2 * kMaxEncodedLength, 2 * kMaxEncodedLength) :: r.2)

/-- BufferedBlockReader::GetFrom (pdb.cc 256-283): read the block at
[offset, offset+n), fail with IOError on a short read, otherwise seek the
block (NULL comparator, linear scan) and report the value when found. -/
def getFrom (file k : Bytes) (offset n : Nat) : Status × Option Bytes :=
  if (readRaw file offset n).length ≠ n then
    (Status.ioError "Read ret partial data", none)
  else
    match blockSeek k (readRaw file offset n) with
    | some v => (Status.ok, some v)
    | none => (Status.ok, none)

/-- The scan loop of BufferedBlockReader::Get (pdb.cc 299-313): walk the
index stripe pairwise; when the filter stripe [bloomoffset, next) admits the
key, read the data block [offset, next) and stop on a hit or a read error.
Returns the final status, the value found, and the data-block reads
issued. -/
def getLoop (file k bloomfilter indexes : Bytes)
    (bloomoffset offset off : Nat) : Status × Option Bytes × List (Nat × Nat) :=
  if h : off + 15 < indexes.length then
    let nb := decodeFixed64At indexes off
    let no := decodeFixed64At indexes (off + 8)
    if bloomKeyMayMatch k (readRaw bloomfilter bloomoffset (nb - bloomoffset))
    then
      match getFrom file k offset (no - offset) with
      | (st, some v) => (st, some v, [(offset, no - offset)])
      | (st, none) =>
        if st ≠ Status.ok then (st, none, [(offset, no - offset)])
        else
          let r := getLoop file k bloomfilter indexes nb no (off + 16)
          (r.1, r.2.1, (offset, no - offset) :: r.2.2)
    else getLoop file k bloomfilter indexes nb no (off + 16)
  else (Status.ok, none, [])
termination_by indexes.length - off
decreasing_by all_goals omega

/-- BufferedBlockReader::Get (pdb.cc 286-316): load the cache (returning its
status on failure), decode the first index pair, and run the scan loop from
byte offset 16.  Returns the updated reader, the status, the value, and all
positional reads issued. -/
def bbGet (file : Bytes) (srcSz : Nat) (s : RState) (k : Bytes) :
    RState × (Status × Option Bytes × List (Nat × Nat)) :=
  let m := maybeLoadCache file srcSz s
  if m.1.cacheStatus ≠ Status.ok then (m.1, (m.1.cacheStatus, none, m.2))
  else
    let r := getLoop file k m.1.bloomfilter m.1.indexes
      (decodeFixed64At m.1.indexes 0) (decodeFixed64At m.1.indexes 8) 16
    (m.1, (r.1, r.2.1, m.2 ++ r.2.2))

/-! ## Theorems -/

theorem putFixed64_length (n : Nat) : (putFixed64 n).length = 8 := rfl

theorem byteAt_append_left (l r : Bytes) (i : Nat) (h : i < l.length) :
    byteAt (l ++ r) i = byteAt l i := by
  simp only [byteAt]
  exact List.getD_append l r 0 i h

theorem byteAt_append_right (l r : Bytes) (i : Nat) :
    byteAt (l ++ r) (l.length + i) = byteAt r i := by
  simp [byteAt, List.getD, List.getElem?_append_right (Nat.le_add_right _ _)]

/-- Fixed64 decode is a left inverse of the encode, modulo 2^64. -/
theorem decodeFixed64At_put (n : Nat) (r : Bytes) :
    decodeFixed64At (putFixed64 n ++ r) 0 = n % 2 ^ 64 := by
  have h8 : ∀ i : Nat, i < 8 → byteAt (putFixed64 n ++ r) i = byteAt (putFixed64 n) i := by
    intro i hi
    exact byteAt_append_left _ _ _ (by simp [putFixed64_length]; omega)
  simp only [decodeFixed64At]
  rw [h8 0 (by omega), h8 1 (by omega), h8 2 (by omega), h8 3 (by omega),
      h8 4 (by omega), h8 5 (by omega), h8 6 (by omega), h8 7 (by omega)]
  show n % 256 + n / 2 ^ 8 % 256 * 2 ^ 8 + n / 2 ^ 16 % 256 * 2 ^ 16 +
      n / 2 ^ 24 % 256 * 2 ^ 24 + n / 2 ^ 32 % 256 * 2 ^ 32 +
      n / 2 ^ 40 % 256 * 2 ^ 40 + n / 2 ^ 48 % 256 * 2 ^ 48 +
      n / 2 ^ 56 % 256 * 2 ^ 56 = n % 2 ^ 64
  have e1 : n % 2 ^ 64 = n % 2 ^ 56 + 2 ^ 56 * (n / 2 ^ 56 % 2 ^ 8) := by
    have := Nat.mod_mul (a := 2 ^ 56) (b := 2 ^ 8) (x := n)
    norm_num at this ⊢
    omega
  have e2 : n % 2 ^ 56 = n % 2 ^ 48 + 2 ^ 48 * (n / 2 ^ 48 % 2 ^ 8) := by
    have := Nat.mod_mul (a := 2 ^ 48) (b := 2 ^ 8) (x := n)
    norm_num at this ⊢
    omega
  have e3 : n % 2 ^ 48 = n % 2 ^ 40 + 2 ^ 40 * (n / 2 ^ 40 % 2 ^ 8) := by
    have := Nat.mod_mul (a := 2 ^ 40) (b := 2 ^ 8) (x := n)
    norm_num at this ⊢
    omega
  have e4 : n % 2 ^ 40 = n % 2 ^ 32 + 2 ^ 32 * (n / 2 ^ 32 % 2 ^ 8) := by
    have := Nat.mod_mul (a := 2 ^ 32) (b := 2 ^ 8) (x := n)
    norm_num at this ⊢
    omega
  have e5 : n % 2 ^ 32 = n % 2 ^ 24 + 2 ^ 24 * (n / 2 ^ 24 % 2 ^ 8) := by
    have := Nat.mod_mul (a := 2 ^ 24) (b := 2 ^ 8) (x := n)
    norm_num at this ⊢
    omega
  have e6 : n % 2 ^ 24 = n % 2 ^ 16 + 2 ^ 16 * (n / 2 ^ 16 % 2 ^ 8) := by
    have := Nat.mod_mul (a := 2 ^ 16) (b := 2 ^ 8) (x := n)
    norm_num at this ⊢
    omega
  have e7 : n % 2 ^ 16 = n % 2 ^ 8 + 2 ^ 8 * (n / 2 ^ 8 % 2 ^ 8) := by
    have := Nat.mod_mul (a := 2 ^ 8) (b := 2 ^ 8) (x := n)
    norm_num at this ⊢
    omega
  norm_num
  omega

theorem decodeFixed64At_shift (l bs : Bytes) (p : Nat) :
    decodeFixed64At (l ++ bs) (l.length + p) = decodeFixed64At bs p := by
  simp only [decodeFixed64At]
  rw [show l.length + p + 1 = l.length + (p + 1) by omega,
      show l.length + p + 2 = l.length + (p + 2) by omega,
      show l.length + p + 3 = l.length + (p + 3) by omega,
      show l.length + p + 4 = l.length + (p + 4) by omega,
      show l.length + p + 5 = l.length + (p + 5) by omega,
      show l.length + p + 6 = l.length + (p + 6) by omega,
      show l.length + p + 7 = l.length + (p + 7) by omega]
  rw [byteAt_append_right, byteAt_append_right, byteAt_append_right,
      byteAt_append_right, byteAt_append_right, byteAt_append_right,
      byteAt_append_right, byteAt_append_right]

theorem varintDec_encAux : ∀ fuel n r, n ≤ fuel →
    varintDec (varintEncAux fuel n ++ r) = some (n, r) := by
  intro fuel
  induction fuel with
  | zero =>
    intro n r h
    have hn : n = 0 := by omega
    subst hn
    simp [varintEncAux, varintDec]
  | succ f ih =>
    intro n r h
    by_cases h1 : n < 128
    · simp [varintEncAux, h1, varintDec]
    · rw [varintEncAux]
      simp only [h1, if_false, List.cons_append]
      have hrec := ih (n / 128) r (by
        have := Nat.div_lt_self (show 0 < n by omega) (show 1 < 128 by omega)
        omega)
      simp [varintDec, hrec]
      omega

theorem varintDec_enc (n : Nat) (r : Bytes) :
    varintDec (varintEnc n ++ r) = some (n, r) :=
  varintDec_encAux n n r (le_refl n)

theorem varintEncAux_length_le : ∀ fuel n k, n < 128 ^ (k + 1) →
    (varintEncAux fuel n).length ≤ k + 1 := by
  intro fuel
  induction fuel with
  | zero =>
    intro n k _
    simp [varintEncAux]
  | succ f ih =>
    intro n k h
    by_cases h1 : n < 128
    · rw [varintEncAux]
      simp [h1]
    · rw [varintEncAux]
      simp only [h1, if_false, List.length_cons]
      match k with
      | 0 =>
        exfalso
        have hx : (128 : Nat) ^ (0 + 1) = 128 := by norm_num
        omega
      | k2 + 1 =>
        have hd : n / 128 < 128 ^ (k2 + 1) := by
          rw [Nat.div_lt_iff_lt_mul (by omega)]
          calc n < 128 ^ (k2 + 1 + 1) := h
          _ = 128 ^ (k2 + 1) * 128 := by ring
        have := ih (n / 128) k2 hd
        omega

theorem varintEnc_length_le (k n : Nat) (h : n < 128 ^ (k + 1)) :
    (varintEnc n).length ≤ k + 1 :=
  varintEncAux_length_le n n k h

theorem setBit_length (arr : Bytes) (p : Nat) :
    (setBit arr p).length = arr.length := by
  simp [setBit]

theorem byteAt_set (arr : Bytes) (j : Nat) (v : Nat) (i : Nat) :
    byteAt (arr.set j v) i =
      if j = i ∧ j < arr.length then v else byteAt arr i := by
  simp only [byteAt, List.getD_eq_getElem?_getD, List.getElem?_set]
  by_cases h1 : j = i
  · subst h1
    by_cases h2 : j < arr.length
    · simp [h2]
    · have hn : arr[j]? = none := List.getElem?_eq_none (by omega)
      simp [h2, hn]
  · simp [h1]

theorem getBit_setBit_self (arr : Bytes) (p : Nat) (h : p / 8 < arr.length) :
    getBit (setBit arr p) p = true := by
  unfold getBit setBit
  rw [byteAt_set, if_pos ⟨rfl, h⟩, Nat.testBit_or, Nat.testBit_two_pow_self]
  simp

theorem getBit_setBit_mono (arr : Bytes) (p q : Nat)
    (h : getBit arr p = true) : getBit (setBit arr q) p = true := by
  unfold getBit setBit
  unfold getBit at h
  rw [byteAt_set]
  by_cases h1 : q / 8 = p / 8 ∧ q / 8 < arr.length
  · rw [if_pos h1, h1.1, Nat.testBit_or, h]
    simp
  · rw [if_neg h1]
    exact h

theorem getBit_foldl_setBit_mono (ps : List Nat) (arr : Bytes) (p : Nat)
    (h : getBit arr p = true) :
    getBit (ps.foldl setBit arr) p = true := by
  induction ps generalizing arr with
  | nil => exact h
  | cons q qs ih => exact ih _ (getBit_setBit_mono _ _ _ h)

theorem foldl_setBit_length (ps : List Nat) (arr : Bytes) :
    (ps.foldl setBit arr).length = arr.length := by
  induction ps generalizing arr with
  | nil => rfl
  | cons q qs ih => rw [List.foldl_cons, ih, setBit_length]

theorem getBit_foldl_setBit_mem (ps : List Nat) (arr : Bytes) (p : Nat)
    (hmem : p ∈ ps) (hlt : ∀ q ∈ ps, q / 8 < arr.length) :
    getBit (ps.foldl setBit arr) p = true := by
  induction ps generalizing arr with
  | nil => cases hmem
  | cons q qs ih =>
    rw [List.foldl_cons]
    rcases List.mem_cons.mp hmem with rfl | hmem2
    · exact getBit_foldl_setBit_mono qs _ p
        (getBit_setBit_self arr p (hlt p (List.mem_cons_self _ _)))
    · refine ih _ hmem2 ?_
      intro r hr
      rw [setBit_length]
      exact hlt r (List.mem_cons_of_mem _ hr)

theorem bloomAddKey_length (bits k : Nat) (arr : Bytes) (key : Bytes) :
    (bloomAddKey bits k arr key).length = arr.length :=
  foldl_setBit_length _ _

theorem bloomAddKey_mono (bits k : Nat) (arr : Bytes) (key : Bytes) (p : Nat)
    (h : getBit arr p = true) : getBit (bloomAddKey bits k arr key) p = true :=
  getBit_foldl_setBit_mono _ _ _ h

theorem bloomProbes_lt (bits k : Nat) (key : Bytes) (hbits : 0 < bits) :
    ∀ p ∈ bloomProbes bits k key, p < bits := by
  intro p hp
  simp only [bloomProbes, List.mem_map, List.mem_range] at hp
  obtain ⟨j, _, rfl⟩ := hp
  exact Nat.mod_lt _ hbits

theorem bloomAddKey_sets (bits k : Nat) (arr : Bytes) (key : Bytes)
    (hbits : bits = arr.length * 8) (hpos : 0 < arr.length) :
    ∀ p ∈ bloomProbes bits k key,
      getBit (bloomAddKey bits k arr key) p = true := by
  intro p hp
  refine getBit_foldl_setBit_mem _ _ _ hp ?_
  intro q hq
  have h1 : q < bits := bloomProbes_lt bits k key (by omega) q hq
  have : q < arr.length * 8 := by omega
  omega

theorem foldl_bloomAddKey_length (bits k : Nat) (keys : List Bytes)
    (arr : Bytes) :
    (keys.foldl (bloomAddKey bits k) arr).length = arr.length := by
  induction keys generalizing arr with
  | nil => rfl
  | cons x xs ih => rw [List.foldl_cons, ih, bloomAddKey_length]

theorem foldl_bloomAddKey_mono (bits k : Nat) (keys : List Bytes)
    (arr : Bytes) (p : Nat) (h : getBit arr p = true) :
    getBit (keys.foldl (bloomAddKey bits k) arr) p = true := by
  induction keys generalizing arr with
  | nil => exact h
  | cons x xs ih => exact ih _ (bloomAddKey_mono _ _ _ _ _ h)

theorem foldl_bloomAddKey_sets (bits k : Nat) (keys : List Bytes)
    (arr : Bytes) (key : Bytes) (hmem : key ∈ keys)
    (hbits : bits = arr.length * 8) (hpos : 0 < arr.length) :
    ∀ p ∈ bloomProbes bits k key,
      getBit (keys.foldl (bloomAddKey bits k) arr) p = true := by
  induction keys generalizing arr with
  | nil => cases hmem
  | cons x xs ih =>
    intro p hp
    rw [List.foldl_cons]
    rcases List.mem_cons.mp hmem with rfl | hmem2
    · exact foldl_bloomAddKey_mono _ _ _ _ _
        (bloomAddKey_sets bits k arr key hbits hpos p hp)
    · refine ih (bloomAddKey bits k arr x) hmem2 ?_ ?_ p hp
      · rw [bloomAddKey_length]
        exact hbits
      · rw [bloomAddKey_length]
        exact hpos

/-- No false negatives for the Bloom filter: every key inserted while
building is reported as possibly present by BloomKeyMayMatch on the
finished blob. -/
theorem bloomKeyMayMatch_complete (bitsPerKey : Nat) (keys : List Bytes)
    (key : Bytes) (hmem : key ∈ keys) :
    bloomKeyMayMatch key (bloomFinish bitsPerKey keys) = true := by
  set nbytes := (max 64 (keys.length * bitsPerKey) + 7) / 8 with hnb
  have hnbpos : 0 < nbytes := by
    have h64 : 64 ≤ max 64 (keys.length * bitsPerKey) := le_max_left _ _
    omega
  set k := bloomNumProbes bitsPerKey with hk
  have hk30 : k ≤ 30 := min_le_left _ _
  set arr := keys.foldl (bloomAddKey (nbytes * 8) k) (List.replicate nbytes 0)
    with harr
  have harrlen : arr.length = nbytes := by
    rw [harr, foldl_bloomAddKey_length, List.length_replicate]
  have hblob : bloomFinish bitsPerKey keys = arr ++ [k] := rfl
  rw [hblob]
  have hlen : (arr ++ [k]).length = nbytes + 1 := by
    simp [harrlen]
  have hlast : byteAt (arr ++ [k]) ((arr ++ [k]).length - 1) = k := by
    have he : (arr ++ [k]).length - 1 = arr.length + 0 := by
      rw [hlen]
      omega
    rw [he, byteAt_append_right]
    rfl
  rw [bloomKeyMayMatch, hlast]
  have h2 : ¬((arr ++ [k]).length < 2) := by
    rw [hlen]
    omega
  rw [if_neg h2, if_neg (by omega : ¬(30 < k))]
  rw [List.all_eq_true]
  intro p hp
  have hbits : ((arr ++ [k]).length - 1) * 8 = arr.length * 8 := by
    rw [hlen, harrlen]
    omega
  rw [hbits] at hp
  have hset := foldl_bloomAddKey_sets (arr.length * 8) k keys
    (List.replicate nbytes 0) key hmem
    (by rw [harrlen, List.length_replicate])
    (by simpa using hnbpos) p hp
  rw [harrlen] at hset
  rw [← harr] at hset
  have hplt : p < arr.length * 8 :=
    bloomProbes_lt _ _ _ (by rw [harrlen]; omega) p hp
  unfold getBit at hset ⊢
  rw [byteAt_append_left _ _ _ (by omega)]
  exact hset

theorem i1Of_lt (m : Nat) (k : Bytes) (hm : 0 < m) : i1Of m k < m :=
  Nat.mod_lt _ hm

theorem cuckooAlt_lt (i fp m : Nat) (hm : 0 < m) : cuckooAlt i fp m < m :=
  Nat.mod_lt _ hm

theorem bucketAt_set_ne (t : List (List Nat)) (i j : Nat) (b2 : List Nat)
    (h : j ≠ i) : bucketAt (t.set i b2) j = bucketAt t j := by
  unfold bucketAt
  rw [List.getD_eq_getElem?_getD, List.getD_eq_getElem?_getD,
    List.getElem?_set_ne (Ne.symm h)]

theorem bucketAt_set_self (t : List (List Nat)) (i : Nat) (b2 : List Nat)
    (hi : i < t.length) : bucketAt (t.set i b2) i = b2 := by
  unfold bucketAt
  have h1 : (t.set i b2)[i]? = some b2 := by
    rw [List.getElem?_eq_getElem (by simpa using hi)]
    simp
  rw [List.getD_eq_getElem?_getD, h1]
  rfl

theorem set_mem_self (l : List Nat) (s x : Nat) (hs : s < l.length) :
    x ∈ l.set s x :=
  List.mem_iff_getElem.mpr ⟨s, by simpa using hs, by simp⟩

theorem mem_set_or (l : List Nat) (s x a : Nat) (ha : a ∈ l) :
    a ∈ l.set s x ∨ a = l.getD s 0 := by
  rw [List.mem_iff_getElem] at ha
  obtain ⟨p, hp, hpa⟩ := ha
  by_cases hps : p = s
  · right
    subst hps
    rw [List.getD_eq_getElem?_getD, List.getElem?_eq_getElem hp]
    simpa using hpa.symm
  · left
    rw [List.mem_iff_getElem]
    refine ⟨p, by simpa using hp, ?_⟩
    rw [List.getElem_set_ne (fun h => hps h.symm)]
    exact hpa

theorem cuckooAlt_invol (j i fp : Nat) (hi : i < 2 ^ j) :
    cuckooAlt (cuckooAlt i fp (2 ^ j)) fp (2 ^ j) = i := by
  unfold cuckooAlt
  apply Nat.eq_of_testBit_eq
  intro t
  by_cases ht : t < j
  · simp [Nat.testBit_mod_two_pow, Nat.testBit_xor, ht, Bool.xor_assoc]
  · have h1 : Nat.testBit i t = false := by
      apply Nat.testBit_lt_two_pow
      calc i < 2 ^ j := hi
        _ ≤ 2 ^ t := Nat.pow_le_pow_right (by omega) (by omega)
    simp [Nat.testBit_mod_two_pow, ht, h1]

theorem isHome_alt (b j : Nat) (k : Bytes) (i : Nat)
    (h : isHome b (2 ^ j) k i) :
    isHome b (2 ^ j) k (cuckooAlt i (fpOf b k) (2 ^ j)) := by
  cases h with
  | inl h1 =>
    right
    rw [h1]
    rfl
  | inr h2 =>
    left
    rw [h2]
    exact cuckooAlt_invol j (i1Of (2 ^ j) k) (fpOf b k)
      (i1Of_lt (2 ^ j) k (Nat.pos_pow_of_pos j (by omega)))

theorem goodOne_set_cons (b m : Nat) (t : List (List Nat)) (k : Bytes)
    (i fp : Nat) (h : goodOne b m t k) :
    goodOne b m (t.set i (fp :: bucketAt t i)) k := by
  by_cases hi : i < t.length
  · cases h with
    | inl h1 =>
      left
      by_cases he : i1Of m k = i
      · rw [he, bucketAt_set_self t i _ hi]
        exact List.mem_cons_of_mem _ (he ▸ h1)
      · rw [bucketAt_set_ne t i _ _ he]
        exact h1
    | inr h2 =>
      right
      by_cases he : i2Of b m k = i
      · rw [he, bucketAt_set_self t i _ hi]
        exact List.mem_cons_of_mem _ (he ▸ h2)
      · rw [bucketAt_set_ne t i _ _ he]
        exact h2
  · rw [List.set_eq_of_length_le (by omega)]
    exact h

theorem evictChain_good (b j : Nat) (k : Bytes) : ∀ (fuel : Nat)
    (cs : List Nat) (t : List (List Nat)) (fp i : Nat),
    t.length = 2 ^ j → i < 2 ^ j →
    (goodOne b (2 ^ j) t k ∨ (fp = fpOf b k ∧ isHome b (2 ^ j) k i)) →
    (evictChain fuel cs t fp i (2 ^ j)).1.length = 2 ^ j ∧
    (match (evictChain fuel cs t fp i (2 ^ j)).2 with
     | none => goodOne b (2 ^ j) (evictChain fuel cs t fp i (2 ^ j)).1 k
     | some fi =>
         goodOne b (2 ^ j) (evictChain fuel cs t fp i (2 ^ j)).1 k ∨
           (fi.1 = fpOf b k ∧ isHome b (2 ^ j) k fi.2)) := by
  intro fuel
  induction fuel with
  | zero =>
    intro cs t fp i hlen hi hinp
    exact ⟨hlen, hinp⟩
  | succ fuel ih =>
    intro cs t fp i hlen hi hinp
    rw [evictChain]
    by_cases hfree : (bucketAt t i).length < 4
    · rw [if_pos hfree]
      refine ⟨by simpa using hlen, ?_⟩
      cases hinp with
      | inl hg => exact goodOne_set_cons b (2 ^ j) t k i fp hg
      | inr hc =>
        have hmem : fpOf b k ∈ bucketAt (t.set i (fp :: bucketAt t i)) i := by
          rw [bucketAt_set_self t i _ (by omega)]
          rw [hc.1]
          exact List.mem_cons_self _ _
        cases hc.2 with
        | inl h1 =>
          left
          rw [← h1]
          exact hmem
        | inr h2 =>
          right
          rw [← h2]
          exact hmem
    · rw [if_neg hfree]
      have hblen : 0 < (bucketAt t i).length := by omega
      have hs : cs.headD 0 % (bucketAt t i).length < (bucketAt t i).length :=
        Nat.mod_lt _ hblen
      refine ih cs.tail _ _ _ (by simpa using hlen)
        (cuckooAlt_lt _ _ _ (Nat.pos_pow_of_pos j (by omega))) ?_
      cases hinp with
      | inl hg =>
        rcases hg with h1 | h1
        · by_cases he : i1Of (2 ^ j) k = i
          · rcases mem_set_or (bucketAt t i)
                (cs.headD 0 % (bucketAt t i).length) fp (fpOf b k)
                (he ▸ h1) with hin | hev
            · left
              left
              rw [he, bucketAt_set_self t i _ (by omega)]
              exact hin
            · right
              refine ⟨hev.symm, ?_⟩
              rw [← hev]
              exact isHome_alt b j k i (Or.inl he.symm)
          · left
            left
            rw [bucketAt_set_ne t i _ _ he]
            exact h1
        · by_cases he : i2Of b (2 ^ j) k = i
          · rcases mem_set_or (bucketAt t i)
                (cs.headD 0 % (bucketAt t i).length) fp (fpOf b k)
                (he ▸ h1) with hin | hev
            · left
              right
              rw [he, bucketAt_set_self t i _ (by omega)]
              exact hin
            · right
              refine ⟨hev.symm, ?_⟩
              rw [← hev]
              exact isHome_alt b j k i (Or.inr he.symm)
          · left
            right
            rw [bucketAt_set_ne t i _ _ he]
            exact h1
      | inr hc =>
        left
        have hmem : fpOf b k ∈
            bucketAt (t.set i ((bucketAt t i).set
              (cs.headD 0 % (bucketAt t i).length) fp)) i := by
          rw [bucketAt_set_self t i _ (by omega)]
          rw [← hc.1]
          exact set_mem_self _ _ _ hs
        cases hc.2 with
        | inl h1 =>
          left
          rw [← h1]
          exact hmem
        | inr h2 =>
          right
          rw [← h2]
          exact hmem

theorem cuckooInsert_good (b j maxMoves : Nat) (cs : List Nat)
    (st : CuckooState) (k : Bytes) (hlen : st.cur.length = 2 ^ j) :
    (cuckooInsert b (2 ^ j) maxMoves cs st k).cur.length = 2 ^ j ∧
    ∀ k0, (cuckooGood b (2 ^ j) (allTables st) k0 ∨ k0 = k) →
      cuckooGood b (2 ^ j) (allTables (cuckooInsert b (2 ^ j) maxMoves cs st k))
        k0 := by
  have hmpos : 0 < 2 ^ j := Nat.pos_pow_of_pos j (by omega)
  have hi1 : i1Of (2 ^ j) k < 2 ^ j := i1Of_lt _ _ hmpos
  have hi2 : i2Of b (2 ^ j) k < 2 ^ j := cuckooAlt_lt _ _ _ hmpos
  have hcurgood : ∀ k0 t2,
      goodOne b (2 ^ j) t2 k0 →
      cuckooGood b (2 ^ j) (st.frozen ++ [t2]) k0 := by
    intro k0 t2 hg
    exact ⟨t2, List.mem_append_right _ (List.mem_singleton.mpr rfl), hg⟩
  rw [cuckooInsert]
  by_cases h1 : (bucketAt st.cur (i1Of (2 ^ j) k)).length < 4
  · rw [if_pos h1]
    refine ⟨by simpa using hlen, ?_⟩
    intro k0 hk0
    cases hk0 with
    | inl hg =>
      obtain ⟨t, ht, hgt⟩ := hg
      rcases List.mem_append.mp ht with hf | hc
      · exact ⟨t, List.mem_append_left _ hf, hgt⟩
      · rw [List.mem_singleton.mp hc] at hgt
        exact hcurgood k0 _ (goodOne_set_cons b (2 ^ j) st.cur k0 _ _ hgt)
    | inr he =>
      subst he
      refine hcurgood k0 _ ?_
      left
      rw [bucketAt_set_self st.cur _ _ (by omega)]
      exact List.mem_cons_self _ _
  · rw [if_neg h1]
    by_cases h2 : (bucketAt st.cur (i2Of b (2 ^ j) k)).length < 4
    · rw [if_pos h2]
      refine ⟨by simpa using hlen, ?_⟩
      intro k0 hk0
      cases hk0 with
      | inl hg =>
        obtain ⟨t, ht, hgt⟩ := hg
        rcases List.mem_append.mp ht with hf | hc
        · exact ⟨t, List.mem_append_left _ hf, hgt⟩
        · rw [List.mem_singleton.mp hc] at hgt
          exact hcurgood k0 _ (goodOne_set_cons b (2 ^ j) st.cur k0 _ _ hgt)
      | inr he =>
        subst he
        refine hcurgood k0 _ ?_
        right
        rw [bucketAt_set_self st.cur _ _ (by omega)]
        exact List.mem_cons_self _ _
    · rw [if_neg h2]
      rcases hev : evictChain maxMoves cs st.cur (fpOf b k)
          (i2Of b (2 ^ j) k) (2 ^ j) with ⟨t2, hand⟩
      cases hand with
      | none =>
        have hchain : ∀ k0,
            (goodOne b (2 ^ j) st.cur k0 ∨
              (fpOf b k = fpOf b k0 ∧
                isHome b (2 ^ j) k0 (i2Of b (2 ^ j) k))) →
            t2.length = 2 ^ j ∧ goodOne b (2 ^ j) t2 k0 := by
          intro k0 hinp
          have h := evictChain_good b j k0 maxMoves cs st.cur (fpOf b k)
            (i2Of b (2 ^ j) k) hlen hi2 hinp
          rw [hev] at h
          exact h
        have hself := hchain k (Or.inr ⟨rfl, Or.inr rfl⟩)
        refine ⟨hself.1, ?_⟩
        intro k0 hk0
        cases hk0 with
        | inl hg =>
          obtain ⟨t, ht, hgt⟩ := hg
          rcases List.mem_append.mp ht with hf | hc
          · exact ⟨t, List.mem_append_left _ hf, hgt⟩
          · rw [List.mem_singleton.mp hc] at hgt
            exact hcurgood k0 _ ((hchain k0 (Or.inl hgt)).2)
        | inr he =>
          subst he
          exact hcurgood k0 _ hself.2
      | some fi =>
        have hchain : ∀ k0,
            (goodOne b (2 ^ j) st.cur k0 ∨
              (fpOf b k = fpOf b k0 ∧
                isHome b (2 ^ j) k0 (i2Of b (2 ^ j) k))) →
            t2.length = 2 ^ j ∧ (goodOne b (2 ^ j) t2 k0 ∨
              (fi.1 = fpOf b k0 ∧ isHome b (2 ^ j) k0 fi.2)) := by
          intro k0 hinp
          have h := evictChain_good b j k0 maxMoves cs st.cur (fpOf b k)
            (i2Of b (2 ^ j) k) hlen hi2 hinp
          rw [hev] at h
          exact h
        have hself := hchain k (Or.inr ⟨rfl, Or.inr rfl⟩)
        have hnewlen : ((emptyTable (2 ^ j)).set fi.2 [fi.1]).length = 2 ^ j := by
          simp [emptyTable]
        refine ⟨hnewlen, ?_⟩
        have hfin : ∀ k0, (goodOne b (2 ^ j) t2 k0 ∨
            (fi.1 = fpOf b k0 ∧ isHome b (2 ^ j) k0 fi.2)) →
            cuckooGood b (2 ^ j)
              ((st.frozen ++ [t2]) ++ [(emptyTable (2 ^ j)).set fi.2 [fi.1]])
              k0 := by
          intro k0 hd
          cases hd with
          | inl hg =>
            exact ⟨t2, List.mem_append_left _
              (List.mem_append_right _ (List.mem_singleton.mpr rfl)), hg⟩
          | inr hc =>
            have hfi2 : fi.2 < 2 ^ j := by
              cases hc.2 with
              | inl hh => rw [hh]; exact i1Of_lt _ _ hmpos
              | inr hh => rw [hh]; exact cuckooAlt_lt _ _ _ hmpos
            have hmem : fpOf b k0 ∈
                bucketAt ((emptyTable (2 ^ j)).set fi.2 [fi.1]) fi.2 := by
              rw [bucketAt_set_self _ _ _ (by simp [emptyTable]; omega)]
              rw [← hc.1]
              exact List.mem_singleton.mpr rfl
            refine ⟨(emptyTable (2 ^ j)).set fi.2 [fi.1],
              List.mem_append_right _ (List.mem_singleton.mpr rfl), ?_⟩
            cases hc.2 with
            | inl hh =>
              left
              rw [← hh]
              exact hmem
            | inr hh =>
              right
              rw [← hh]
              exact hmem
        intro k0 hk0
        cases hk0 with
        | inl hg =>
          obtain ⟨t, ht, hgt⟩ := hg
          rcases List.mem_append.mp ht with hf | hc
          · exact ⟨t, List.mem_append_left _ (List.mem_append_left _ hf), hgt⟩
          · rw [List.mem_singleton.mp hc] at hgt
            exact hfin k0 ((hchain k0 (Or.inl hgt)).2)
        | inr he =>
          subst he
          exact hfin k0 hself.2

theorem cuckooBuild_good (b j maxMoves : Nat) : ∀ (keys : List Bytes)
    (css : List (List Nat)) (st : CuckooState),
    st.cur.length = 2 ^ j →
    (cuckooBuild b (2 ^ j) maxMoves css keys st).cur.length = 2 ^ j ∧
    ∀ k0, (cuckooGood b (2 ^ j) (allTables st) k0 ∨ k0 ∈ keys) →
      cuckooGood b (2 ^ j)
        (allTables (cuckooBuild b (2 ^ j) maxMoves css keys st)) k0 := by
  intro keys
  induction keys with
  | nil =>
    intro css st hlen
    refine ⟨hlen, ?_⟩
    intro k0 hk0
    rw [cuckooBuild]
    cases hk0 with
    | inl hg => exact hg
    | inr he => exact absurd he (List.not_mem_nil k0)
  | cons k ks ih =>
    intro css st hlen
    rw [cuckooBuild]
    have hins := cuckooInsert_good b j maxMoves (css.headD []) st k hlen
    have hrec := ih css.tail (cuckooInsert b (2 ^ j) maxMoves
      (css.headD []) st k) hins.1
    refine ⟨hrec.1, ?_⟩
    intro k0 hk0
    cases hk0 with
    | inl hg => exact hrec.2 k0 (Or.inl (hins.2 k0 (Or.inl hg)))
    | inr he =>
      rcases List.mem_cons.mp he with he1 | he2
      · exact hrec.2 k0 (Or.inl (hins.2 k0 (Or.inr he1)))
      · exact hrec.2 k0 (Or.inr he2)

theorem cuckooGood_match (b m : Nat) (tables : List (List (List Nat)))
    (k : Bytes) (h : cuckooGood b m tables k) :
    cuckooKeyMayMatch b m tables k = true := by
  obtain ⟨t, ht, hg⟩ := h
  rw [cuckooKeyMayMatch, List.any_eq_true]
  refine ⟨t, ht, ?_⟩
  cases hg with
  | inl h1 => simp [h1]
  | inr h2 => simp [h2]

/-- C7: no false negatives.  Every key inserted while building a Bloom
filter is reported as possibly present by BloomKeyMayMatch on the finished
blob, and every key inserted into a cuckoo filter with a power-of-two
bucket count — including keys whose insertion spilled into auxiliary
tables — is reported as possibly present by CuckooKeyMayMatch, for every
eviction choice stream. -/
theorem c7_no_false_negatives (bitsPerKey b maxMoves j : Nat)
    (css : List (List Nat)) (keys : List Bytes) (k : Bytes)
    (hk : k ∈ keys) :
    bloomKeyMayMatch k (bloomFinish bitsPerKey keys) = true ∧
    cuckooKeyMayMatch b (2 ^ j)
      (allTables (cuckooBuild b (2 ^ j) maxMoves css keys
        (cuckooInit (2 ^ j)))) k = true := by
  refine ⟨bloomKeyMayMatch_complete bitsPerKey keys k hk, ?_⟩
  have h := cuckooBuild_good b j maxMoves keys css (cuckooInit (2 ^ j))
    (by simp [cuckooInit, emptyTable])
  exact cuckooGood_match _ _ _ _ (h.2 k (Or.inr hk))

/-- Witness for C7: a two-key build with bits-per-key 10, 8-bit
fingerprints, two buckets and a three-move eviction budget reports both
membership queries true for the first inserted key. -/
theorem c7_no_false_negatives_witness :
    [5] ∈ [[5], [9]] ∧
    (bloomKeyMayMatch [5] (bloomFinish 10 [[5], [9]]) = true ∧
     cuckooKeyMayMatch 8 (2 ^ 1)
       (allTables (cuckooBuild 8 (2 ^ 1) 3 [] [[5], [9]]
         (cuckooInit (2 ^ 1)))) [5] = true) :=
  ⟨by decide, c7_no_false_negatives 10 8 3 1 [] [[5], [9]] [5] (by decide)⟩

theorem varintEnc_ne_nil (n : Nat) : varintEnc n ≠ [] := by
  rw [varintEnc]
  cases n with
  | zero => simp [varintEncAux]
  | succ m =>
    rw [varintEncAux]
    by_cases h : m + 1 < 128 <;> simp [h]

theorem varintEnc_length_pos (n : Nat) : 0 < (varintEnc n).length := by
  rcases he : varintEnc n with _ | ⟨b, bs⟩
  · exact absurd he (varintEnc_ne_nil n)
  · simp

theorem join_map_entryEnc_length (l : List (Bytes × Bytes)) :
    l.length ≤ ((l.map entryEnc).flatten).length := by
  induction l with
  | nil => simp
  | cons e es ih =>
    simp only [List.map_cons, List.flatten_cons, List.length_append]
    have h1 : 0 < (entryEnc e).length := by
      simp only [entryEnc, List.length_append]
      have := varintEnc_length_pos e.1.length
      omega
    simp only [List.length_cons]
    omega

/-- Parsing is a left inverse of the block record encoding. -/
theorem parseEntries_enc (l : List (Bytes × Bytes)) (fuel : Nat)
    (hfuel : l.length ≤ fuel) :
    parseEntries fuel ((l.map entryEnc).flatten) = some l := by
  induction l generalizing fuel with
  | nil =>
    cases fuel <;> simp [parseEntries]
  | cons e es ih =>
    obtain ⟨f, rfl⟩ : ∃ f, fuel = f + 1 := by
      simp only [List.length_cons] at hfuel
      exact ⟨fuel - 1, by omega⟩
    have hne : (((e :: es).map entryEnc).flatten) ≠ [] := by
      simp only [List.map_cons, List.flatten_cons, entryEnc]
      intro hcontra
      have := varintEnc_ne_nil e.1.length
      simp only [List.append_assoc, List.append_eq_nil] at hcontra
      exact this hcontra.1
    rw [parseEntries]
    simp only [hne, if_false]
    have hsplit : ((e :: es).map entryEnc).flatten =
        varintEnc e.1.length ++ (varintEnc e.2.length ++
          (e.1 ++ (e.2 ++ (es.map entryEnc).flatten))) := by
      simp [entryEnc, List.append_assoc]
    rw [hsplit]
    have hr2len : e.1.length + e.2.length ≤
        (e.1 ++ (e.2 ++ (es.map entryEnc).flatten)).length := by
      simp [List.length_append]
    have hdrop2 : (e.1 ++ (e.2 ++ (es.map entryEnc).flatten)).drop
        (e.1.length + e.2.length) = (es.map entryEnc).flatten := by
      have hassoc : e.1 ++ (e.2 ++ (es.map entryEnc).flatten) =
          (e.1 ++ e.2) ++ (es.map entryEnc).flatten := by
        simp [List.append_assoc]
      rw [hassoc, show e.1.length + e.2.length = (e.1 ++ e.2).length by
        simp [List.length_append]]
      exact List.drop_left _ _
    simp only [varintDec_enc, hr2len, if_pos, hdrop2,
      ih f (by simp only [List.length_cons] at hfuel; omega),
      List.take_left, List.drop_left]

theorem putFixed32_length (n : Nat) : (putFixed32 n).length = 4 := rfl

/-- Seeking the finished block for a key recovers the first record whose key
matches: the serialization round-trips through the trailer strip, the parse,
and the linear scan. -/
theorem blockSeek_finish (k : Bytes) (entries : List (Bytes × Bytes)) :
    blockSeek k (blockFinish entries) =
      (entries.find? (fun e => decide (e.1 = k))).map Prod.snd := by
  have hshape : blockFinish entries = ((entries.map entryEnc).flatten) ++
      ([0] ++ putFixed32 (crcMask (crcModel ((entries.map entryEnc).flatten ++ [0])))) := by
    simp [blockFinish, List.append_assoc]
  have hlen : (blockFinish entries).length =
      ((entries.map entryEnc).flatten).length + 5 := by
    rw [hshape]
    simp [List.length_append, putFixed32_length]
  have htake : (blockFinish entries).take ((blockFinish entries).length - 5) =
      (entries.map entryEnc).flatten := by
    rw [hlen, hshape]
    have he5 : ((entries.map entryEnc).flatten).length + 5 - 5 =
        ((entries.map entryEnc).flatten).length := by omega
    rw [he5]
    exact List.take_left _ _
  rw [blockSeek, htake,
    parseEntries_enc entries _ (join_map_entryEnc_length entries)]

/-- With distinct keys, the linear scan finds exactly the inserted record. -/
theorem find_entry_of_nodup (l : List (Bytes × Bytes)) (k v : Bytes)
    (hmem : (k, v) ∈ l) (hnd : (l.map Prod.fst).Nodup) :
    l.find? (fun e => decide (e.1 = k)) = some (k, v) := by
  induction l with
  | nil => cases hmem
  | cons e es ih =>
    have hnd2 : e.1 ∉ es.map Prod.fst ∧ (es.map Prod.fst).Nodup := by
      rw [List.map_cons, List.nodup_cons] at hnd
      exact hnd
    rw [List.find?_cons]
    by_cases he : e.1 = k
    · have heq : e = (k, v) := by
        rcases List.mem_cons.mp hmem with rfl | hm2
        · rfl
        · exfalso
          have hk : k ∈ es.map Prod.fst := by
            have hkk : Prod.fst (k, v) ∈ es.map Prod.fst :=
              List.mem_map_of_mem Prod.fst hm2
            simpa using hkk
          rw [← he] at hk
          exact hnd2.1 hk
      rw [heq]
      simp
    · have hfalse : (decide (e.1 = k)) = false := by
        simp [he]
      rw [hfalse]
      have hm2 : (k, v) ∈ es := by
        rcases List.mem_cons.mp hmem with rfl | h2
        · exact absurd rfl he
        · exact h2
      exact ih hm2 hnd2.2

/-- A key absent from the block is never found by the linear scan. -/
theorem find_entry_none (l : List (Bytes × Bytes)) (k : Bytes)
    (hk : k ∉ l.map Prod.fst) :
    l.find? (fun e => decide (e.1 = k)) = none := by
  rw [List.find?_eq_none]
  intro e he
  simp only [decide_eq_true_eq]
  intro hcontra
  apply hk
  rw [← hcontra]
  exact List.mem_map_of_mem Prod.fst he

/-! ## Claim C6 -/

/-- C6: for an open (not yet closed) log sink, a successful Lwrite advances
the logical offset Ltell by exactly the size of the data, a failed Lwrite
leaves the logical offset unchanged, and consequently the offset never
decreases. -/
theorem lwrite_offset (env : FileEnv) (s : LogSink) (dat : Bytes)
    (hopen : s.fileOpen = true) :
    ((LogSink.Lwrite env s dat).1 = Status.ok →
      ((LogSink.Lwrite env s dat).2).Ltell = s.Ltell + dat.length) ∧
    ((LogSink.Lwrite env s dat).1 ≠ Status.ok →
      ((LogSink.Lwrite env s dat).2).Ltell = s.Ltell) ∧
    s.Ltell ≤ ((LogSink.Lwrite env s dat).2).Ltell := by
  by_cases ha : env.appendSt = Status.ok
  · by_cases hf : env.flushSt = Status.ok
    · simp [LogSink.Lwrite, LogSink.Ltell, hopen, ha, hf]
    · simp [LogSink.Lwrite, LogSink.Ltell, hopen, ha, hf]
  · simp [LogSink.Lwrite, LogSink.Ltell, hopen, ha]

/-- Witness for C6 at a concrete input: an open sink at offset 5, a two-byte
write with all file operations succeeding. -/
theorem lwrite_offset_witness :
    ((⟨true, [], 5⟩ : LogSink).fileOpen = true) ∧
    (((LogSink.Lwrite ⟨Status.ok, Status.ok, Status.ok⟩ ⟨true, [], 5⟩ [1, 2]).1 = Status.ok →
      ((LogSink.Lwrite ⟨Status.ok, Status.ok, Status.ok⟩ ⟨true, [], 5⟩ [1, 2]).2).Ltell =
        (⟨true, [], 5⟩ : LogSink).Ltell + ([1, 2] : Bytes).length) ∧
    ((LogSink.Lwrite ⟨Status.ok, Status.ok, Status.ok⟩ ⟨true, [], 5⟩ [1, 2]).1 ≠ Status.ok →
      ((LogSink.Lwrite ⟨Status.ok, Status.ok, Status.ok⟩ ⟨true, [], 5⟩ [1, 2]).2).Ltell =
        (⟨true, [], 5⟩ : LogSink).Ltell) ∧
    (⟨true, [], 5⟩ : LogSink).Ltell ≤
      ((LogSink.Lwrite ⟨Status.ok, Status.ok, Status.ok⟩ ⟨true, [], 5⟩ [1, 2]).2).Ltell) :=
  ⟨rfl, lwrite_offset ⟨Status.ok, Status.ok, Status.ok⟩ ⟨true, [], 5⟩ [1, 2] rfl⟩

/-! ## Claim C8 -/

/-- C8: after a log sink has been closed, every Lwrite and every Lsync on it
fails with a Disconnected status and the sink state (in particular its data
and offset) is unchanged: no data is appended. -/
theorem closed_sink_rejects (env : FileEnv) (s : LogSink) (dat : Bytes) :
    LogSink.Lwrite env s.Lclose dat =
      (Status.disconnected "Log already closed", s.Lclose) ∧
    LogSink.Lsync env s.Lclose =
      (Status.disconnected "Log already closed", s.Lclose) ∧
    (LogSink.Lwrite env s.Lclose dat).2.data = s.data := by
  simp [LogSink.Lwrite, LogSink.Lsync, LogSink.Lclose]

/-! ## Claim C9 -/

theorem range_filter_ne_zero (m : Nat) :
    (List.range (m + 1)).filter (fun i => decide (i ≠ 0)) = List.range' 1 m := by
  induction m with
  | zero => rfl
  | succ m ih =>
    rw [List.range_succ, List.filter_append, ih, List.range'_concat]
    simp [Nat.add_comm]

/-- C9: the BufferedBlockWriter constructor allocates max(n, 2) block
buffers, designates bbs_[0] as the membuf, and places exactly the remaining
max(n, 2) - 1 buffers on the free list, so the writer always has at least
two buffers. -/
theorem ctor_buffers (n : Nat) :
    (mkBufferedBlockWriter n).nBufs = max n 2 ∧
    2 ≤ (mkBufferedBlockWriter n).nBufs ∧
    (mkBufferedBlockWriter n).membufIdx = 0 ∧
    (mkBufferedBlockWriter n).membufIdx ∉ (mkBufferedBlockWriter n).freeIdxs ∧
    (mkBufferedBlockWriter n).freeIdxs.length = max n 2 - 1 ∧
    (∀ i, i ∈ (mkBufferedBlockWriter n).freeIdxs ↔ (i < max n 2 ∧ i ≠ 0)) := by
  have hmax : (if n < 2 then 2 else n) = max n 2 := by
    by_cases h : n < 2 <;> simp [h] <;> omega
  obtain ⟨m, hm⟩ : ∃ m, max n 2 = m + 1 := ⟨max n 2 - 1, by omega⟩
  have hn : (mkBufferedBlockWriter n).nBufs = max n 2 := by
    simp [mkBufferedBlockWriter, hmax]
  have hfree : (mkBufferedBlockWriter n).freeIdxs = List.range' 1 m := by
    simp only [mkBufferedBlockWriter]
    rw [hmax, hm, range_filter_ne_zero]
  have hmem0 : (mkBufferedBlockWriter n).membufIdx = 0 := rfl
  refine ⟨hn, by omega, hmem0, ?_, ?_, ?_⟩
  · rw [hmem0, hfree]
    simp only [List.mem_range']
    rintro ⟨j, hj, he⟩
    omega
  · rw [hfree, List.length_range']
    omega
  · intro i
    rw [hfree]
    simp only [List.mem_range']
    constructor
    · rintro ⟨j, hj, rfl⟩
      constructor <;> omega
    · rintro ⟨h1, h2⟩
      exact ⟨i - 1, by omega, by omega⟩

/-! ## Claim C5 -/

/-- Counterexample to C5 as stated: when the footer append fails, Close
returns that error but never attempts the destination sync/close step, so
Finish does not attempt all three steps when an earlier one fails. -/
theorem close_counterexample :
    (closeWriter ⟨Status.ok, Status.ok, Status.ioError "footer append failed",
        Status.ok, Status.ok⟩ false).1 = Status.ioError "footer append failed" ∧
    BackendOp.sync ∉
      (closeWriter ⟨Status.ok, Status.ok, Status.ioError "footer append failed",
        Status.ok, Status.ok⟩ false).2 ∧
    BackendOp.closeDst ∉
      (closeWriter ⟨Status.ok, Status.ok, Status.ioError "footer append failed",
        Status.ok, Status.ok⟩ false).2 := by
  refine ⟨rfl, ?_, ?_⟩ <;> decide

/-- C5 (amended): Close returns the first error among the backend steps it
attempts — filter-stream append (when the stream is non-empty), index-stream
append, footer append, destination sync — but once a step fails the later
steps are skipped; the destination Close call runs (with its status ignored)
only when everything up to the footer succeeded. -/
theorem close_first_error (env : CloseEnv) (fe : Bool) :
    (closeWriter env fe).1 = firstErr (plannedSts env fe) ∧
    (BackendOp.appendFooter ∈ (closeWriter env fe).2 ↔
      ((fe = true ∨ env.appendFilterSt = Status.ok) ∧
        env.appendIndexSt = Status.ok)) ∧
    (BackendOp.sync ∈ (closeWriter env fe).2 ↔
      ((fe = true ∨ env.appendFilterSt = Status.ok) ∧
        env.appendIndexSt = Status.ok ∧ env.appendFooterSt = Status.ok)) ∧
    (BackendOp.closeDst ∈ (closeWriter env fe).2 ↔
      ((fe = true ∨ env.appendFilterSt = Status.ok) ∧
        env.appendIndexSt = Status.ok ∧ env.appendFooterSt = Status.ok)) := by
  by_cases h1 : env.appendFilterSt = Status.ok <;>
    by_cases h2 : env.appendIndexSt = Status.ok <;>
      by_cases h3 : env.appendFooterSt = Status.ok <;>
        by_cases h4 : env.syncSt = Status.ok <;>
          cases fe <;>
            simp [closeWriter, dumpIndexesAndFilters, firstErr, plannedSts,
              h1, h2, h3, h4]

/-! ## Claim C4 -/

/-- C4: from the initial writer state, whatever tickets are outstanding and
however the background workers are scheduled, every reachable state has
appended exactly the blocks of tickets 1..completed, in that order; in
particular the append order is strictly increasing in the ticket and a block
is never appended before all blocks with smaller tickets. -/
theorem ticket_append_order (tickets : List Nat) (s : TicketState)
    (h : Relation.ReflTransGen TicketStep (ticketInit tickets) s) :
    s.appended = List.range' 1 s.completed ∧
    List.Pairwise (fun a b => a < b) s.appended := by
  have main : s.appended = List.range' 1 s.completed := by
    induction h with
    | refl => rfl
    | tail _ step ih =>
      cases step with
      | append t hmem hbarrier =>
        show _ ++ [t] = _
        rw [ih, hbarrier, List.range'_concat]
        simp [Nat.add_comm]
  refine ⟨main, ?_⟩
  rw [main]
  exact List.pairwise_lt_range' 1 s.completed

theorem dstOfBlks_append_one (blks : List (List (Bytes × Bytes)))
    (c : List (Bytes × Bytes)) :
    dstOfBlks (blks ++ [c]) = dstOfBlks blks ++ blockFinish c := by
  simp [dstOfBlks]

theorem filtOfBlks_append_one (bfBits : Nat)
    (blks : List (List (Bytes × Bytes))) (c : List (Bytes × Bytes)) :
    filtOfBlks bfBits (blks ++ [c]) =
      filtOfBlks bfBits blks ++ filterOf bfBits c := by
  simp [filtOfBlks]

theorem midPairs_append_one (bfBits : Nat)
    (blks : List (List (Bytes × Bytes))) (c : List (Bytes × Bytes)) :
    midPairs bfBits (blks ++ [c]) = midPairs bfBits blks ++
      [((filtOfBlks bfBits blks).length, (dstOfBlks blks).length)] := by
  simp only [midPairs, List.length_append, List.length_cons, List.length_nil]
  rw [show blks.length + (0 + 1) = blks.length + 1 by omega, List.range_succ,
    List.map_append]
  congr 1
  · apply List.map_congr_left
    intro i hi
    rw [List.mem_range] at hi
    rw [List.take_append_of_le_length (by omega)]
  · simp

theorem pairsEnc_append_one (ps : List (Nat × Nat)) (q : Nat × Nat) :
    pairsEnc (ps ++ [q]) = pairsEnc ps ++ putFixed64 q.1 ++ putFixed64 q.2 := by
  simp [pairsEnc, List.append_assoc]

theorem pairsOf_eq_midPairs (bfBits : Nat)
    (blks : List (List (Bytes × Bytes))) :
    pairsOf bfBits blks = midPairs bfBits blks ++
      [((filtOfBlks bfBits blks).length, (dstOfBlks blks).length)] := by
  simp only [pairsOf, midPairs, List.range_succ, List.map_append]
  congr 1
  simp

/-- Compacting a buffer advances the closed-form accumulator by one block. -/
theorem wCompact_stateOf (bfBits : Nat)
    (blks : List (List (Bytes × Bytes))) (c : List (Bytes × Bytes))
    (hc : c ≠ []) :
    wCompact bfBits { stateOf bfBits (blks, c) with membuf := [] } c =
      stateOf bfBits (blks ++ [c], []) := by
  simp only [wCompact, hc, if_false, stateOf]
  simp only [WState.mk.injEq, true_and, and_true]
  refine ⟨?_, ?_, ?_, ?_⟩
  · rw [midPairs_append_one, pairsEnc_append_one]
  · rw [filtOfBlks_append_one]
    rfl
  · rw [dstOfBlks_append_one]
  · rw [dstOfBlks_append_one, List.length_append]

/-- One Add step agrees with one chunking step. -/
theorem wAdd_stateOf (bfBits threshold : Nat)
    (p : List (List (Bytes × Bytes)) × List (Bytes × Bytes))
    (e : Bytes × Bytes) :
    wAdd bfBits threshold (stateOf bfBits p) e =
      stateOf bfBits (chunkStep threshold p e) := by
  by_cases h : threshold ≤ bufBytes (p.2 ++ [e])
  · have hmem : (stateOf bfBits p).membuf = p.2 := rfl
    simp only [wAdd, hmem, h, if_pos, chunkStep, if_pos h]
    exact wCompact_stateOf bfBits p.1 (p.2 ++ [e]) (by simp)
  · simp only [wAdd, h, if_neg, not_false_iff, chunkStep, stateOf]

/-- The sequential Add loop agrees with the chunking fold. -/
theorem foldl_wAdd_stateOf (bfBits threshold : Nat)
    (ops : List (Bytes × Bytes))
    (p : List (List (Bytes × Bytes)) × List (Bytes × Bytes)) :
    ops.foldl (wAdd bfBits threshold) (stateOf bfBits p) =
      stateOf bfBits (ops.foldl (chunkStep threshold) p) := by
  induction ops generalizing p with
  | nil => rfl
  | cons e es ih =>
    rw [List.foldl_cons, List.foldl_cons, wAdd_stateOf]
    exact ih _

theorem wWrite_eq (bfBits threshold : Nat) (ops : List (Bytes × Bytes)) :
    wWrite bfBits threshold ops = stateOf bfBits (chunksOf threshold ops) := by
  have hinit : wInit = stateOf bfBits ([], []) := rfl
  rw [wWrite, hinit, foldl_wAdd_stateOf]
  rfl

/-- Flushing the remaining membuf yields the state for all emitted blocks. -/
theorem wFlush_stateOf (bfBits : Nat)
    (p : List (List (Bytes × Bytes)) × List (Bytes × Bytes)) :
    wFlush bfBits (stateOf bfBits p) =
      stateOf bfBits
        (p.1 ++ (if p.2 = [] then [] else [p.2]), []) := by
  by_cases h : p.2 = []
  · cases p with
    | mk a b =>
      simp only at h
      subst h
      simp [wFlush, stateOf]
  · have hmem : (stateOf bfBits p).membuf = p.2 := rfl
    simp only [wFlush, hmem, h, if_neg, not_false_iff, if_false]
    rw [wCompact_stateOf bfBits p.1 p.2 h]

/-- The finished writer: every component of the final state in closed form.
The file contents are the block stream, the filter stream, the index stripe
(with its sentinel), and the footer. -/
theorem writerRun_eq (bfBits threshold : Nat) (ops : List (Bytes × Bytes)) :
    writerRun bfBits threshold ops =
      { membuf := []
        indexes := pairsEnc (pairsOf bfBits (allBlocks threshold ops))
        bloomfilter := filtOfBlks bfBits (allBlocks threshold ops)
        dst := layoutFile bfBits (allBlocks threshold ops)
        offset := (dstOfBlks (allBlocks threshold ops)).length +
          (filtOfBlks bfBits (allBlocks threshold ops)).length +
          (pairsEnc (pairsOf bfBits (allBlocks threshold ops))).length } := by
  rw [writerRun, wWrite_eq, wFinish, wFlush_stateOf]
  have hblks : (chunksOf threshold ops).1 ++
      (if (chunksOf threshold ops).2 = [] then []
       else [(chunksOf threshold ops).2]) = allBlocks threshold ops := rfl
  rw [hblks]
  set blks := allBlocks threshold ops with hb
  simp only [wClose, wDump, stateOf]
  have hidx : pairsEnc (midPairs bfBits blks) ++
      putFixed64 (filtOfBlks bfBits blks).length ++
      putFixed64 (dstOfBlks blks).length =
      pairsEnc (pairsOf bfBits blks) := by
    rw [pairsOf_eq_midPairs, pairsEnc_append_one]
  simp only [WState.mk.injEq, true_and, and_true]
  refine ⟨hidx, ?_, ?_⟩
  · rw [layoutFile]
    rw [← hidx]
  · rw [← hidx]

/-! ### Slicing and decoding lemmas for the reader proofs -/

theorem readRaw_exact (a b : Bytes) : readRaw (a ++ b) a.length b.length = b := by
  rw [readRaw, show a.length = a.length + 0 by omega, List.drop_append,
    List.drop_zero, List.take_length]

theorem readRaw_append_left (a b : Bytes) (off n : Nat)
    (h : off + n ≤ a.length) :
    readRaw (a ++ b) off n = readRaw a off n := by
  rw [readRaw, readRaw, List.drop_append_eq_append_drop,
    show off - a.length = 0 by omega, List.drop_zero,
    List.take_append_of_le_length (by simp [List.length_drop]; omega)]

theorem pairsEnc_length (ps : List (Nat × Nat)) :
    (pairsEnc ps).length = 16 * ps.length := by
  induction ps with
  | nil => rfl
  | cons p ps ih =>
    simp only [pairsEnc, List.map_cons, List.flatten_cons, List.length_append,
      List.length_cons]
    rw [← pairsEnc]
    rw [ih]
    simp [putFixed64_length]
    ring

theorem pairsEnc_cons (p : Nat × Nat) (ps : List (Nat × Nat)) :
    pairsEnc (p :: ps) =
      (putFixed64 p.1 ++ putFixed64 p.2) ++ pairsEnc ps := by
  simp [pairsEnc]

theorem decodeFixed64At_pairsEnc (ps : List (Nat × Nat)) (i : Nat)
    (hi : i < ps.length) :
    decodeFixed64At (pairsEnc ps) (16 * i) = (ps.get ⟨i, hi⟩).1 % 2 ^ 64 ∧
    decodeFixed64At (pairsEnc ps) (16 * i + 8) =
      (ps.get ⟨i, hi⟩).2 % 2 ^ 64 := by
  induction ps generalizing i with
  | nil => simp at hi
  | cons p ps ih =>
    cases i with
    | zero =>
      rw [pairsEnc_cons]
      constructor
      · rw [List.append_assoc]
        have h0 : 16 * 0 = 0 := rfl
        rw [h0]
        exact decodeFixed64At_put p.1 _
      · rw [List.append_assoc,
          show 16 * 0 + 8 = (putFixed64 p.1).length + 0 by
            rw [putFixed64_length],
          decodeFixed64At_shift]
        exact decodeFixed64At_put p.2 _
    | succ i =>
      rw [pairsEnc_cons]
      have h16 : (putFixed64 p.1 ++ putFixed64 p.2).length = 16 := by
        simp [putFixed64_length]
      have hi2 : i < ps.length := by
        simp only [List.length_cons] at hi
        omega
      constructor
      · rw [show 16 * (i + 1) = (putFixed64 p.1 ++ putFixed64 p.2).length +
            16 * i by rw [h16]; ring, decodeFixed64At_shift]
        exact (ih i hi2).1
      · rw [show 16 * (i + 1) + 8 = (putFixed64 p.1 ++ putFixed64 p.2).length +
            (16 * i + 8) by rw [h16]; ring, decodeFixed64At_shift]
        exact (ih i hi2).2

theorem flatten_take_prefix (xs : List Bytes) (i : Nat) :
    (xs.take i).flatten.length ≤ xs.flatten.length := by
  conv_rhs => rw [← List.take_append_drop i xs]
  rw [List.flatten_append, List.length_append]
  omega

theorem flatten_take_succ (xs : List Bytes) (j : Nat) (hj : j < xs.length) :
    (xs.take (j + 1)).flatten =
      (xs.take j).flatten ++ xs.get ⟨j, hj⟩ := by
  rw [List.take_succ, List.getElem?_eq_getElem hj, Option.toList_some,
    List.flatten_append]
  simp only [List.flatten_cons, List.flatten_nil, List.append_nil]
  rfl

theorem flatten_split_at (xs : List Bytes) (j : Nat) (hj : j < xs.length) :
    xs.flatten = (xs.take j).flatten ++
      (xs.get ⟨j, hj⟩ ++ (xs.drop (j + 1)).flatten) := by
  conv_lhs => rw [← List.take_append_drop (j + 1) xs]
  rw [List.flatten_append, flatten_take_succ xs j hj, List.append_assoc]

theorem readRaw_flatten_piece (xs : List Bytes) (j : Nat) (hj : j < xs.length) :
    readRaw xs.flatten ((xs.take j).flatten.length)
      (xs.get ⟨j, hj⟩).length = xs.get ⟨j, hj⟩ := by
  rw [flatten_split_at xs j hj, readRaw,
    show (xs.take j).flatten.length = (xs.take j).flatten.length + 0 by omega,
    List.drop_append, List.drop_zero, List.take_left]

theorem readRaw_after (a b : Bytes) (n : Nat) :
    readRaw (a ++ b) a.length n = b.take n := by
  rw [readRaw, show a.length = a.length + 0 by omega, List.drop_append,
    List.drop_zero]

theorem varintEnc_le_ten (n : Nat) (h : n < 2 ^ 64) :
    (varintEnc n).length ≤ 10 := by
  refine varintEnc_length_le 9 n ?_
  have hle : (2 : Nat) ^ 64 ≤ 128 ^ (9 + 1) := by norm_num
  omega

theorem handleDec_enc (h : Nat × Nat) (r : Bytes) :
    handleDec (handleEnc h ++ r) = some (h, r) := by
  rw [handleEnc, List.append_assoc]
  simp only [handleDec, varintDec_enc]

theorem handleEnc_length_le (h : Nat × Nat) (h1 : h.1 < 2 ^ 64)
    (h2 : h.2 < 2 ^ 64) : (handleEnc h).length ≤ kMaxEncodedLength := by
  rw [handleEnc, List.length_append, kMaxEncodedLength]
  have := varintEnc_le_ten h.1 h1
  have := varintEnc_le_ten h.2 h2
  omega

theorem footerBytes_eq (bh ih : Nat × Nat)
    (hlen : (handleEnc bh).length + (handleEnc ih).length ≤
      2 * kMaxEncodedLength) :
    footerBytes bh ih = handleEnc bh ++ (handleEnc ih ++
      List.replicate (2 * kMaxEncodedLength -
        ((handleEnc bh).length + (handleEnc ih).length)) 0) := by
  rw [footerBytes, ← List.append_assoc, List.take_append_eq_append_take,
    List.take_of_length_le (by rw [List.length_append]; omega),
    List.take_replicate, List.length_append,
    Nat.min_eq_left (by omega), List.append_assoc]

theorem footerBytes_length (bh ih : Nat × Nat) :
    (footerBytes bh ih).length = 2 * kMaxEncodedLength := by
  rw [footerBytes, List.length_take]
  simp only [List.length_append, List.length_replicate]
  omega

theorem pairsOf_length (bfBits : Nat) (blks : List (List (Bytes × Bytes))) :
    (pairsOf bfBits blks).length = blks.length + 1 := by
  simp [pairsOf]

/-- Loading the cache over a well-formed finished file: the footer decodes
to the two handles, one read pulls in the filter and index streams, and the
reader ends in an OK state holding exactly the filter stream and the index
stripe. -/
theorem maybeLoadCache_layout (bfBits : Nat)
    (blks : List (List (Bytes × Bytes)))
    (hsz : (dstOfBlks blks).length + (filtOfBlks bfBits blks).length +
      (pairsEnc (pairsOf bfBits blks)).length < 2 ^ 64) :
    maybeLoadCache (layoutFile bfBits blks) (layoutFile bfBits blks).length
        rInit =
      (⟨Status.ok,
        filtOfBlks bfBits blks ++ pairsEnc (pairsOf bfBits blks),
        pairsEnc (pairsOf bfBits blks),
        filtOfBlks bfBits blks⟩,
       [((layoutFile bfBits blks).length - 2 * kMaxEncodedLength,
         2 * kMaxEncodedLength),
        ((dstOfBlks blks).length,
         (filtOfBlks bfBits blks).length +
           (pairsEnc (pairsOf bfBits blks)).length)]) := by
  set D := dstOfBlks blks with hD
  set F := filtOfBlks bfBits blks with hF
  set I := pairsEnc (pairsOf bfBits blks) with hI
  set bh : Nat × Nat := (D.length, F.length) with hbh
  set ih : Nat × Nat := (D.length + F.length, I.length) with hih
  have hlay : layoutFile bfBits blks = (D ++ F ++ I) ++ footerBytes bh ih := by
    rw [layoutFile, ← hD, ← hF, ← hI, ← hbh, ← hih]
  have hfootlen : (footerBytes bh ih).length = 2 * kMaxEncodedLength :=
    footerBytes_length bh ih
  have hlaylen : (layoutFile bfBits blks).length =
      (D ++ F ++ I).length + 2 * kMaxEncodedLength := by
    rw [hlay, List.length_append, hfootlen]
  have hsub : (layoutFile bfBits blks).length - 2 * kMaxEncodedLength =
      (D ++ F ++ I).length := by omega
  have hnotshort : ¬((layoutFile bfBits blks).length <
      2 * kMaxEncodedLength) := by omega
  have hfootread : readRaw (layoutFile bfBits blks)
      ((layoutFile bfBits blks).length - 2 * kMaxEncodedLength)
      (2 * kMaxEncodedLength) = footerBytes bh ih := by
    rw [hsub, hlay, ← hfootlen, readRaw_exact]
  have hencbh : (handleEnc bh).length ≤ kMaxEncodedLength :=
    handleEnc_length_le bh (by simp only [hbh]; omega)
      (by simp only [hbh]; omega)
  have hencih : (handleEnc ih).length ≤ kMaxEncodedLength :=
    handleEnc_length_le ih (by simp only [hih]; omega)
      (by simp only [hih]; omega)
  have hfoot : footerBytes bh ih = handleEnc bh ++ (handleEnc ih ++
      List.replicate (2 * kMaxEncodedLength -
        ((handleEnc bh).length + (handleEnc ih).length)) 0) :=
    footerBytes_eq bh ih (by omega)
  have hdec1 : handleDec (footerBytes bh ih) = some (bh, handleEnc ih ++
      List.replicate (2 * kMaxEncodedLength -
        ((handleEnc bh).length + (handleEnc ih).length)) 0) := by
    rw [hfoot, handleDec_enc]
  have hdec2 : handleDec (handleEnc ih ++
      List.replicate (2 * kMaxEncodedLength -
        ((handleEnc bh).length + (handleEnc ih).length)) 0) =
      some (ih, List.replicate (2 * kMaxEncodedLength -
        ((handleEnc bh).length + (handleEnc ih).length)) 0) :=
    handleDec_enc ih _
  have hcontents : readRaw (layoutFile bfBits blks) bh.1 (bh.2 + ih.2) =
      F ++ I := by
    have hre : layoutFile bfBits blks = D ++ ((F ++ I) ++ footerBytes bh ih) := by
      rw [hlay]
      simp [List.append_assoc]
    rw [hre]
    have hb1 : bh.1 = D.length := rfl
    rw [hb1, readRaw_after, List.take_append_of_le_length
      (by simp only [hbh, hih, List.length_append]; omega)]
    have hfi : bh.2 + ih.2 = (F ++ I).length := by
      simp only [hbh, hih, List.length_append]
    rw [hfi, List.take_length]
  have hIlen : 16 ≤ I.length := by
    rw [hI, pairsEnc_length, pairsOf_length]
    omega
  rw [maybeLoadCache]
  rw [if_neg (by simp [rInit])]
  rw [if_neg hnotshort]
  rw [hfootread]
  rw [if_neg (by simp [hfootlen])]
  rw [loadIndexesAndFilters, hdec1]
  simp only []
  rw [hdec2]
  simp only []
  rw [hcontents]
  have hclen : (F ++ I).length = bh.2 + ih.2 := by
    simp only [hbh, hih, List.length_append]
  rw [if_neg (by rw [hclen]; simp)]
  have hdropF : (F ++ I).drop bh.2 = I := by
    have hb2 : bh.2 = F.length := rfl
    rw [hb2, List.drop_left]
  rw [hdropF]
  rw [if_neg (by omega)]
  have htakeF : (F ++ I).take ((F ++ I).length - ih.2) = F := by
    have hi2 : ih.2 = I.length := rfl
    rw [hi2, List.length_append, show F.length + I.length - I.length =
      F.length by omega, List.take_left]
  rw [htakeF]

theorem pairsOf_get (bfBits : Nat) (blks : List (List (Bytes × Bytes)))
    (i : Nat) (hi : i < (pairsOf bfBits blks).length) :
    (pairsOf bfBits blks).get ⟨i, hi⟩ =
      ((filtOfBlks bfBits (blks.take i)).length,
       (dstOfBlks (blks.take i)).length) := by
  simp [pairsOf]

theorem filt_take_eq (bfBits : Nat) (blks : List (List (Bytes × Bytes)))
    (i : Nat) : filtOfBlks bfBits (blks.take i) =
      ((blks.map (filterOf bfBits)).take i).flatten := by
  rw [filtOfBlks, List.map_take]

theorem dst_take_eq (blks : List (List (Bytes × Bytes))) (i : Nat) :
    dstOfBlks (blks.take i) = ((blks.map blockFinish).take i).flatten := by
  rw [dstOfBlks, List.map_take]

theorem filt_take_le (bfBits : Nat) (blks : List (List (Bytes × Bytes)))
    (i : Nat) : (filtOfBlks bfBits (blks.take i)).length ≤
      (filtOfBlks bfBits blks).length := by
  rw [filt_take_eq, filtOfBlks]
  exact flatten_take_prefix _ _

theorem dst_take_le (blks : List (List (Bytes × Bytes))) (i : Nat) :
    (dstOfBlks (blks.take i)).length ≤ (dstOfBlks blks).length := by
  rw [dst_take_eq, dstOfBlks]
  exact flatten_take_prefix _ _

theorem filt_take_succ (bfBits : Nat) (blks : List (List (Bytes × Bytes)))
    (j : Nat) (hj : j < blks.length) :
    (filtOfBlks bfBits (blks.take (j + 1))).length =
      (filtOfBlks bfBits (blks.take j)).length +
        (filterOf bfBits (blks.get ⟨j, hj⟩)).length := by
  rw [filt_take_eq, filt_take_eq]
  have hx : j < (blks.map (filterOf bfBits)).length := by
    rw [List.length_map]
    exact hj
  rw [flatten_take_succ _ j hx, List.length_append]
  congr 2
  simp

theorem dst_take_succ (blks : List (List (Bytes × Bytes))) (j : Nat)
    (hj : j < blks.length) :
    (dstOfBlks (blks.take (j + 1))).length =
      (dstOfBlks (blks.take j)).length +
        (blockFinish (blks.get ⟨j, hj⟩)).length := by
  rw [dst_take_eq, dst_take_eq]
  have hx : j < (blks.map blockFinish).length := by
    rw [List.length_map]
    exact hj
  rw [flatten_take_succ _ j hx, List.length_append]
  congr 2
  simp

theorem filt_slice (bfBits : Nat) (blks : List (List (Bytes × Bytes)))
    (j : Nat) (hj : j < blks.length) :
    readRaw (filtOfBlks bfBits blks)
      ((filtOfBlks bfBits (blks.take j)).length)
      ((filtOfBlks bfBits (blks.take (j + 1))).length -
        (filtOfBlks bfBits (blks.take j)).length) =
      filterOf bfBits (blks.get ⟨j, hj⟩) := by
  have hsub : (filtOfBlks bfBits (blks.take (j + 1))).length -
      (filtOfBlks bfBits (blks.take j)).length =
      (filterOf bfBits (blks.get ⟨j, hj⟩)).length := by
    rw [filt_take_succ bfBits blks j hj]
    omega
  rw [hsub, filtOfBlks, filt_take_eq]
  have hx : j < (blks.map (filterOf bfBits)).length := by
    rw [List.length_map]
    exact hj
  have hpc := readRaw_flatten_piece (blks.map (filterOf bfBits)) j hx
  have hg : (blks.map (filterOf bfBits)).get ⟨j, hx⟩ =
      filterOf bfBits (blks.get ⟨j, hj⟩) := by
    simp
  rw [hg] at hpc
  exact hpc

theorem getFrom_layout (bfBits : Nat) (blks : List (List (Bytes × Bytes)))
    (k : Bytes) (j : Nat) (hj : j < blks.length) :
    getFrom (layoutFile bfBits blks) k ((dstOfBlks (blks.take j)).length)
      ((dstOfBlks (blks.take (j + 1))).length -
        (dstOfBlks (blks.take j)).length) =
      (Status.ok,
       ((blks.get ⟨j, hj⟩).find? (fun e => decide (e.1 = k))).map Prod.snd) := by
  have hsub : (dstOfBlks (blks.take (j + 1))).length -
      (dstOfBlks (blks.take j)).length =
      (blockFinish (blks.get ⟨j, hj⟩)).length := by
    rw [dst_take_succ blks j hj]
    omega
  have hread : readRaw (layoutFile bfBits blks)
      ((dstOfBlks (blks.take j)).length)
      ((blockFinish (blks.get ⟨j, hj⟩)).length) =
      blockFinish (blks.get ⟨j, hj⟩) := by
    have hlay2 : layoutFile bfBits blks = dstOfBlks blks ++
        (filtOfBlks bfBits blks ++ (pairsEnc (pairsOf bfBits blks) ++
          footerBytes ((dstOfBlks blks).length, (filtOfBlks bfBits blks).length)
            ((dstOfBlks blks).length + (filtOfBlks bfBits blks).length,
             (pairsEnc (pairsOf bfBits blks)).length))) := by
      rw [layoutFile]
      simp [List.append_assoc]
    have hbound : (dstOfBlks (blks.take j)).length +
        (blockFinish (blks.get ⟨j, hj⟩)).length ≤ (dstOfBlks blks).length := by
      rw [← dst_take_succ blks j hj]
      exact dst_take_le blks (j + 1)
    rw [hlay2, readRaw_append_left _ _ _ _ hbound, dstOfBlks, dst_take_eq]
    have hx : j < (blks.map blockFinish).length := by
      rw [List.length_map]
      exact hj
    have hpc := readRaw_flatten_piece (blks.map blockFinish) j hx
    have hg : (blks.map blockFinish).get ⟨j, hx⟩ =
        blockFinish (blks.get ⟨j, hj⟩) := by
      simp
    rw [hg] at hpc
    exact hpc
  rw [getFrom, hsub, hread]
  rw [if_neg (by simp)]
  rw [blockSeek_finish]
  cases ((blks.get ⟨j, hj⟩).find? (fun e => decide (e.1 = k))).map Prod.snd with
  | none => rfl
  | some v => rfl

theorem decode_pair_layout (bfBits : Nat) (blks : List (List (Bytes × Bytes)))
    (i : Nat) (hi : i ≤ blks.length)
    (hsz : (dstOfBlks blks).length + (filtOfBlks bfBits blks).length < 2 ^ 64) :
    decodeFixed64At (pairsEnc (pairsOf bfBits blks)) (16 * i) =
      (filtOfBlks bfBits (blks.take i)).length ∧
    decodeFixed64At (pairsEnc (pairsOf bfBits blks)) (16 * i + 8) =
      (dstOfBlks (blks.take i)).length := by
  have hi2 : i < (pairsOf bfBits blks).length := by
    rw [pairsOf_length]
    omega
  have hd := decodeFixed64At_pairsEnc (pairsOf bfBits blks) i hi2
  rw [pairsOf_get bfBits blks i hi2] at hd
  have hFb : (filtOfBlks bfBits (blks.take i)).length < 2 ^ 64 := by
    have := filt_take_le bfBits blks i
    omega
  have hDb : (dstOfBlks (blks.take i)).length < 2 ^ 64 := by
    have := dst_take_le blks i
    omega
  constructor
  · rw [hd.1]
    exact Nat.mod_eq_of_lt hFb
  · rw [hd.2]
    exact Nat.mod_eq_of_lt hDb

set_option maxHeartbeats 1000000 in
/-- One iteration of the Get scan loop over a well-formed file, at block j:
the next index pair decodes to the cumulative offsets after block j, the
filter slice is block j's filter stripe, and the loop either answers from
block j or continues at j + 1. -/
theorem getLoop_unfold (bfBits : Nat) (blks : List (List (Bytes × Bytes)))
    (k : Bytes) (j : Nat) (hj : j < blks.length)
    (hsz : (dstOfBlks blks).length + (filtOfBlks bfBits blks).length < 2 ^ 64) :
    getLoop (layoutFile bfBits blks) k (filtOfBlks bfBits blks)
      (pairsEnc (pairsOf bfBits blks))
      ((filtOfBlks bfBits (blks.take j)).length)
      ((dstOfBlks (blks.take j)).length) (16 * (j + 1)) =
    (if bloomKeyMayMatch k (filterOf bfBits (blks.get ⟨j, hj⟩)) then
      match getFrom (layoutFile bfBits blks) k
          ((dstOfBlks (blks.take j)).length)
          ((dstOfBlks (blks.take (j + 1))).length -
            (dstOfBlks (blks.take j)).length) with
      | (st, some v) => (st, some v,
          [((dstOfBlks (blks.take j)).length,
            (dstOfBlks (blks.take (j + 1))).length -
              (dstOfBlks (blks.take j)).length)])
      | (st, none) =>
        if st ≠ Status.ok then (st, none,
          [((dstOfBlks (blks.take j)).length,
            (dstOfBlks (blks.take (j + 1))).length -
              (dstOfBlks (blks.take j)).length)])
        else
          ((getLoop (layoutFile bfBits blks) k (filtOfBlks bfBits blks)
              (pairsEnc (pairsOf bfBits blks))
              ((filtOfBlks bfBits (blks.take (j + 1))).length)
              ((dstOfBlks (blks.take (j + 1))).length) (16 * (j + 1) + 16)).1,
           (getLoop (layoutFile bfBits blks) k (filtOfBlks bfBits blks)
              (pairsEnc (pairsOf bfBits blks))
              ((filtOfBlks bfBits (blks.take (j + 1))).length)
              ((dstOfBlks (blks.take (j + 1))).length) (16 * (j + 1) + 16)).2.1,
           ((dstOfBlks (blks.take j)).length,
            (dstOfBlks (blks.take (j + 1))).length -
              (dstOfBlks (blks.take j)).length) ::
           (getLoop (layoutFile bfBits blks) k (filtOfBlks bfBits blks)
              (pairsEnc (pairsOf bfBits blks))
              ((filtOfBlks bfBits (blks.take (j + 1))).length)
              ((dstOfBlks (blks.take (j + 1))).length) (16 * (j + 1) + 16)).2.2)
    else
      getLoop (layoutFile bfBits blks) k (filtOfBlks bfBits blks)
        (pairsEnc (pairsOf bfBits blks))
        ((filtOfBlks bfBits (blks.take (j + 1))).length)
        ((dstOfBlks (blks.take (j + 1))).length) (16 * (j + 1) + 16)) := by
  have hguard : 16 * (j + 1) + 15 <
      (pairsEnc (pairsOf bfBits blks)).length := by
    rw [pairsEnc_length, pairsOf_length]
    omega
  have hdec := decode_pair_layout bfBits blks (j + 1) (by omega) hsz
  rw [getLoop, dif_pos hguard]
  simp only [hdec.1, hdec.2, filt_slice bfBits blks j hj]

theorem getLoop_base (bfBits : Nat) (blks : List (List (Bytes × Bytes)))
    (k : Bytes) (bo oo : Nat) (j : Nat) (hj : blks.length ≤ j) :
    getLoop (layoutFile bfBits blks) k (filtOfBlks bfBits blks)
      (pairsEnc (pairsOf bfBits blks)) bo oo (16 * (j + 1)) =
      (Status.ok, none, []) := by
  rw [getLoop, dif_neg]
  rw [pairsEnc_length, pairsOf_length]
  omega

theorem getLoop_step_notfound (bfBits : Nat)
    (blks : List (List (Bytes × Bytes))) (k : Bytes) (j : Nat)
    (hj : j < blks.length)
    (hsz : (dstOfBlks blks).length + (filtOfBlks bfBits blks).length < 2 ^ 64)
    (hnf : (blks.get ⟨j, hj⟩).find? (fun e => decide (e.1 = k)) = none) :
    (getLoop (layoutFile bfBits blks) k (filtOfBlks bfBits blks)
      (pairsEnc (pairsOf bfBits blks))
      ((filtOfBlks bfBits (blks.take j)).length)
      ((dstOfBlks (blks.take j)).length) (16 * (j + 1))).1 =
    (getLoop (layoutFile bfBits blks) k (filtOfBlks bfBits blks)
      (pairsEnc (pairsOf bfBits blks))
      ((filtOfBlks bfBits (blks.take (j + 1))).length)
      ((dstOfBlks (blks.take (j + 1))).length) (16 * (j + 1) + 16)).1 ∧
    (getLoop (layoutFile bfBits blks) k (filtOfBlks bfBits blks)
      (pairsEnc (pairsOf bfBits blks))
      ((filtOfBlks bfBits (blks.take j)).length)
      ((dstOfBlks (blks.take j)).length) (16 * (j + 1))).2.1 =
    (getLoop (layoutFile bfBits blks) k (filtOfBlks bfBits blks)
      (pairsEnc (pairsOf bfBits blks))
      ((filtOfBlks bfBits (blks.take (j + 1))).length)
      ((dstOfBlks (blks.take (j + 1))).length) (16 * (j + 1) + 16)).2.1 := by
  rw [getLoop_unfold bfBits blks k j hj hsz]
  by_cases hb : bloomKeyMayMatch k (filterOf bfBits (blks.get ⟨j, hj⟩)) = true
  · rw [if_pos hb, getFrom_layout bfBits blks k j hj, hnf]
    simp
  · rw [if_neg hb]
    exact ⟨rfl, rfl⟩

theorem getLoop_step_found (bfBits : Nat)
    (blks : List (List (Bytes × Bytes))) (k v : Bytes) (j : Nat)
    (hj : j < blks.length)
    (hsz : (dstOfBlks blks).length + (filtOfBlks bfBits blks).length < 2 ^ 64)
    (hb : bloomKeyMayMatch k (filterOf bfBits (blks.get ⟨j, hj⟩)) = true)
    (hf : ((blks.get ⟨j, hj⟩).find? (fun e => decide (e.1 = k))).map
      Prod.snd = some v) :
    (getLoop (layoutFile bfBits blks) k (filtOfBlks bfBits blks)
      (pairsEnc (pairsOf bfBits blks))
      ((filtOfBlks bfBits (blks.take j)).length)
      ((dstOfBlks (blks.take j)).length) (16 * (j + 1))).1 = Status.ok ∧
    (getLoop (layoutFile bfBits blks) k (filtOfBlks bfBits blks)
      (pairsEnc (pairsOf bfBits blks))
      ((filtOfBlks bfBits (blks.take j)).length)
      ((dstOfBlks (blks.take j)).length) (16 * (j + 1))).2.1 = some v := by
  rw [getLoop_unfold bfBits blks k j hj hsz, if_pos hb,
    getFrom_layout bfBits blks k j hj, hf]
  exact ⟨rfl, rfl⟩

/-- If no block from j on contains the key, the scan loop ends with an OK
status and no value. -/
theorem getLoop_miss (bfBits : Nat) (blks : List (List (Bytes × Bytes)))
    (k : Bytes)
    (hsz : (dstOfBlks blks).length + (filtOfBlks bfBits blks).length < 2 ^ 64) :
    ∀ m j, blks.length - j = m →
      (∀ i (hi : i < blks.length), j ≤ i →
        k ∉ (blks.get ⟨i, hi⟩).map Prod.fst) →
      (getLoop (layoutFile bfBits blks) k (filtOfBlks bfBits blks)
        (pairsEnc (pairsOf bfBits blks))
        ((filtOfBlks bfBits (blks.take j)).length)
        ((dstOfBlks (blks.take j)).length) (16 * (j + 1))).1 = Status.ok ∧
      (getLoop (layoutFile bfBits blks) k (filtOfBlks bfBits blks)
        (pairsEnc (pairsOf bfBits blks))
        ((filtOfBlks bfBits (blks.take j)).length)
        ((dstOfBlks (blks.take j)).length) (16 * (j + 1))).2.1 = none := by
  intro m
  induction m with
  | zero =>
    intro j hm _
    rw [getLoop_base bfBits blks k _ _ j (by omega)]
    exact ⟨rfl, rfl⟩
  | succ m ih =>
    intro j hm hmiss
    have hj : j < blks.length := by omega
    have hnf : (blks.get ⟨j, hj⟩).find? (fun e => decide (e.1 = k)) = none :=
      find_entry_none _ _ (hmiss j hj (le_refl j))
    have hstep := getLoop_step_notfound bfBits blks k j hj hsz hnf
    have hihr := ih (j + 1) (by omega)
      (fun i hi hji => hmiss i hi (by omega))
    rw [show 16 * (j + 1) + 16 = 16 * (j + 1 + 1) by ring] at hstep
    exact ⟨hstep.1.trans hihr.1, hstep.2.trans hihr.2⟩

theorem nodup_per_block (blks : List (List (Bytes × Bytes)))
    (hnd : ((blks.flatten).map Prod.fst).Nodup) (i : Nat)
    (hi : i < blks.length) : ((blks.get ⟨i, hi⟩).map Prod.fst).Nodup := by
  rw [List.map_flatten] at hnd
  refine (List.nodup_flatten.mp hnd).1 _ ?_
  have hmem : blks.get ⟨i, hi⟩ ∈ blks := List.get_mem blks i hi
  exact List.mem_map_of_mem (List.map Prod.fst) hmem

theorem nodup_cross (blks : List (List (Bytes × Bytes)))
    (hnd : ((blks.flatten).map Prod.fst).Nodup) (i j : Nat)
    (hi : i < blks.length) (hj2 : j < blks.length) (hne : i ≠ j) (a : Bytes)
    (ha : a ∈ (blks.get ⟨i, hi⟩).map Prod.fst) :
    a ∉ (blks.get ⟨j, hj2⟩).map Prod.fst := by
  rw [List.map_flatten] at hnd
  have h2 := (List.nodup_flatten.mp hnd).2
  rw [List.pairwise_iff_getElem] at h2
  have hmi : i < (blks.map (List.map Prod.fst)).length := by
    rw [List.length_map]
    exact hi
  have hmj : j < (blks.map (List.map Prod.fst)).length := by
    rw [List.length_map]
    exact hj2
  have hgi : (blks.map (List.map Prod.fst))[i] =
      (blks.get ⟨i, hi⟩).map Prod.fst := by
    simp
  have hgj : (blks.map (List.map Prod.fst))[j] =
      (blks.get ⟨j, hj2⟩).map Prod.fst := by
    simp
  rcases Nat.lt_or_ge i j with hlt | hge
  · have hd := h2 i j hmi hmj hlt
    rw [hgi, hgj] at hd
    exact fun hb => hd ha hb
  · have hlt2 : j < i := by omega
    have hd := h2 j i hmj hmi hlt2
    rw [hgi, hgj] at hd
    exact fun hb => hd hb ha

/-- If block jj contains the record (k, v) and the keys across all blocks
are distinct, the scan loop starting at any j ≤ jj returns exactly v with an
OK status. -/
theorem getLoop_hit (bfBits : Nat) (blks : List (List (Bytes × Bytes)))
    (k v : Bytes) (hbf : bfBits ≠ 0)
    (hsz : (dstOfBlks blks).length + (filtOfBlks bfBits blks).length < 2 ^ 64)
    (hnd : ((blks.flatten).map Prod.fst).Nodup) (jj : Nat)
    (hjj : jj < blks.length) (hmem : (k, v) ∈ blks.get ⟨jj, hjj⟩) :
    ∀ m j, jj - j = m → j ≤ jj →
      (getLoop (layoutFile bfBits blks) k (filtOfBlks bfBits blks)
        (pairsEnc (pairsOf bfBits blks))
        ((filtOfBlks bfBits (blks.take j)).length)
        ((dstOfBlks (blks.take j)).length) (16 * (j + 1))).1 = Status.ok ∧
      (getLoop (layoutFile bfBits blks) k (filtOfBlks bfBits blks)
        (pairsEnc (pairsOf bfBits blks))
        ((filtOfBlks bfBits (blks.take j)).length)
        ((dstOfBlks (blks.take j)).length) (16 * (j + 1))).2.1 = some v := by
  have hkmem : k ∈ (blks.get ⟨jj, hjj⟩).map Prod.fst := by
    have hx : Prod.fst (k, v) ∈ (blks.get ⟨jj, hjj⟩).map Prod.fst :=
      List.mem_map_of_mem Prod.fst hmem
    simpa using hx
  intro m
  induction m with
  | zero =>
    intro j hm hjle
    have hje : j = jj := by omega
    subst hje
    have hfind : (blks.get ⟨j, hjj⟩).find? (fun e => decide (e.1 = k)) =
        some (k, v) :=
      find_entry_of_nodup _ k v hmem (nodup_per_block blks hnd j hjj)
    have hbloom : bloomKeyMayMatch k
        (filterOf bfBits (blks.get ⟨j, hjj⟩)) = true := by
      rw [filterOf, if_pos hbf]
      exact bloomKeyMayMatch_complete bfBits _ k hkmem
    exact getLoop_step_found bfBits blks k v j hjj hsz hbloom
      (by rw [hfind]; rfl)
  | succ m ih =>
    intro j hm hjle
    have hj : j < blks.length := by omega
    have hjne : j ≠ jj := by omega
    have hnotin : k ∉ (blks.get ⟨j, hj⟩).map Prod.fst :=
      nodup_cross blks hnd jj j hjj hj (by omega) k hkmem
    have hnf : (blks.get ⟨j, hj⟩).find? (fun e => decide (e.1 = k)) = none :=
      find_entry_none _ _ hnotin
    have hstep := getLoop_step_notfound bfBits blks k j hj hsz hnf
    have hihr := ih (j + 1) (by omega) (by omega)
    rw [show 16 * (j + 1) + 16 = 16 * (j + 1 + 1) by ring] at hstep
    exact ⟨hstep.1.trans hihr.1, hstep.2.trans hihr.2⟩

theorem chunks_content (threshold : Nat) (ops : List (Bytes × Bytes)) :
    ∀ p, ((ops.foldl (chunkStep threshold) p).1.flatten ++
      (ops.foldl (chunkStep threshold) p).2) = p.1.flatten ++ p.2 ++ ops := by
  induction ops with
  | nil =>
    intro p
    simp
  | cons e es ih =>
    intro p
    rw [List.foldl_cons, ih (chunkStep threshold p e)]
    by_cases h : threshold ≤ bufBytes (p.2 ++ [e])
    · simp [chunkStep, h, List.append_assoc]
    · simp [chunkStep, h, List.append_assoc]

/-- The emitted blocks carry exactly the inserted records, in order. -/
theorem allBlocks_flatten (threshold : Nat) (ops : List (Bytes × Bytes)) :
    (allBlocks threshold ops).flatten = ops := by
  have h : (chunksOf threshold ops).1.flatten ++ (chunksOf threshold ops).2 =
      ops := by
    rw [chunksOf]
    simpa using chunks_content threshold ops ([], [])
  rw [allBlocks, List.flatten_append]
  by_cases hc : (chunksOf threshold ops).2 = []
  · rw [if_pos hc]
    simp only [List.flatten_nil, List.append_nil]
    rw [hc, List.append_nil] at h
    exact h
  · rw [if_neg hc]
    simp only [List.flatten_cons, List.flatten_nil, List.append_nil]
    exact h

/-- Running Get over a well-formed finished file reduces to the scan loop
from block 0. -/
theorem bbGet_layout (bfBits : Nat) (blks : List (List (Bytes × Bytes)))
    (k : Bytes)
    (hsz : (dstOfBlks blks).length + (filtOfBlks bfBits blks).length +
      (pairsEnc (pairsOf bfBits blks)).length < 2 ^ 64) :
    (bbGet (layoutFile bfBits blks) (layoutFile bfBits blks).length rInit
      k).2.1 =
      (getLoop (layoutFile bfBits blks) k (filtOfBlks bfBits blks)
        (pairsEnc (pairsOf bfBits blks))
        ((filtOfBlks bfBits (blks.take 0)).length)
        ((dstOfBlks (blks.take 0)).length) (16 * (0 + 1))).1 ∧
    (bbGet (layoutFile bfBits blks) (layoutFile bfBits blks).length rInit
      k).2.2.1 =
      (getLoop (layoutFile bfBits blks) k (filtOfBlks bfBits blks)
        (pairsEnc (pairsOf bfBits blks))
        ((filtOfBlks bfBits (blks.take 0)).length)
        ((dstOfBlks (blks.take 0)).length) (16 * (0 + 1))).2.1 := by
  have hload := maybeLoadCache_layout bfBits blks hsz
  have hb0 : decodeFixed64At (pairsEnc (pairsOf bfBits blks)) 0 =
      (filtOfBlks bfBits (blks.take 0)).length := by
    have hd := (decode_pair_layout bfBits blks 0 (by omega) (by omega)).1
    simpa using hd
  have ho0 : decodeFixed64At (pairsEnc (pairsOf bfBits blks)) 8 =
      (dstOfBlks (blks.take 0)).length := by
    have hd := (decode_pair_layout bfBits blks 0 (by omega) (by omega)).2
    simpa using hd
  simp only [bbGet, hload]
  rw [if_neg (by simp)]
  rw [hb0, ho0]
  exact ⟨rfl, rfl⟩

/-- C1: for a writer in its default unique-key mode (distinct keys, Bloom
filters enabled as by default), every record (k, v) inserted with Add before
Finish is returned by Get(k) on a reader over the finished file: the write
path composed with the read path is the identity on the inserted records. -/
theorem c1_write_read_roundtrip (bfBits threshold : Nat) (hbf : bfBits ≠ 0)
    (ops : List (Bytes × Bytes)) (k v : Bytes) (hmem : (k, v) ∈ ops)
    (hnd : (ops.map Prod.fst).Nodup)
    (hsz : (dstOfBlks (allBlocks threshold ops)).length +
      (filtOfBlks bfBits (allBlocks threshold ops)).length +
      (pairsEnc (pairsOf bfBits (allBlocks threshold ops))).length < 2 ^ 64) :
    (bbGet (writerRun bfBits threshold ops).dst
      (writerRun bfBits threshold ops).dst.length rInit k).2.1 =
      Status.ok ∧
    (bbGet (writerRun bfBits threshold ops).dst
      (writerRun bfBits threshold ops).dst.length rInit k).2.2.1 =
      some v := by
  have hdst : (writerRun bfBits threshold ops).dst =
      layoutFile bfBits (allBlocks threshold ops) := by
    rw [writerRun_eq]
  rw [hdst]
  set blks := allBlocks threshold ops with hblks
  have hops : blks.flatten = ops := allBlocks_flatten threshold ops
  have hmem2 : (k, v) ∈ blks.flatten := by
    rw [hops]
    exact hmem
  rw [List.mem_flatten] at hmem2
  obtain ⟨b, hbmem, hkv⟩ := hmem2
  obtain ⟨jj, hjj, hbeq⟩ := List.mem_iff_getElem.mp hbmem
  have hmem3 : (k, v) ∈ blks.get ⟨jj, hjj⟩ := by
    have hgb : blks.get ⟨jj, hjj⟩ = b := hbeq
    rw [hgb]
    exact hkv
  have hnd2 : ((blks.flatten).map Prod.fst).Nodup := by
    rw [hops]
    exact hnd
  have hasm := bbGet_layout bfBits blks k hsz
  have hhit := getLoop_hit bfBits blks k v hbf (by omega) hnd2 jj hjj hmem3
    jj 0 (by omega) (by omega)
  exact ⟨hasm.1.trans hhit.1, hasm.2.trans hhit.2⟩

/-- C1 witness: two records with distinct one-byte keys, a threshold of one
byte (every Add rotates), default Bloom bits; Get of the first key returns
its value. -/
theorem c1_write_read_roundtrip_witness :
    (bbGet (writerRun 8 1 [([1], [7]), ([2], [9])]).dst
      (writerRun 8 1 [([1], [7]), ([2], [9])]).dst.length rInit [1]).2.1 =
      Status.ok ∧
    (bbGet (writerRun 8 1 [([1], [7]), ([2], [9])]).dst
      (writerRun 8 1 [([1], [7]), ([2], [9])]).dst.length rInit [1]).2.2.1 =
      some [7] :=
  c1_write_read_roundtrip 8 1 (by decide) [([1], [7]), ([2], [9])] [1] [7]
    (by decide) (by decide) (by decide)

/-- C2: over any sequence of insertions (hence any sequence of sequential
compactions), the index stripe of the finished writer is exactly one
fixed64-encoded pair (filter stream size, data offset) per emitted block
plus the final sentinel pair appended on Close — n + 1 entries for n
blocks — and both components are monotonically non-decreasing along the
stripe. -/
theorem c2_index_stripe (bfBits threshold : Nat)
    (ops : List (Bytes × Bytes)) :
    (writerRun bfBits threshold ops).indexes =
      pairsEnc (pairsOf bfBits (allBlocks threshold ops)) ∧
    (pairsOf bfBits (allBlocks threshold ops)).length =
      (allBlocks threshold ops).length + 1 ∧
    List.Chain' (fun p q => p.1 ≤ q.1 ∧ p.2 ≤ q.2)
      (pairsOf bfBits (allBlocks threshold ops)) := by
  refine ⟨by rw [writerRun_eq], pairsOf_length _ _, ?_⟩
  set blks := allBlocks threshold ops with hblks
  rw [pairsOf, List.chain'_map, List.chain'_range_succ]
  intro m hm
  constructor
  · rw [filt_take_succ bfBits blks m hm]
    omega
  · rw [dst_take_succ blks m hm]
    omega

/-- C3 (amended): for every key k that appears in no data block of the
finished file (in particular for a file finished with zero records), Get(k)
leaves the output value unset and returns an OK status — not an explicit
NotFound status. -/
theorem c3_get_absent (bfBits threshold : Nat) (ops : List (Bytes × Bytes))
    (k : Bytes) (hnotin : k ∉ ops.map Prod.fst)
    (hsz : (dstOfBlks (allBlocks threshold ops)).length +
      (filtOfBlks bfBits (allBlocks threshold ops)).length +
      (pairsEnc (pairsOf bfBits (allBlocks threshold ops))).length < 2 ^ 64) :
    (bbGet (writerRun bfBits threshold ops).dst
      (writerRun bfBits threshold ops).dst.length rInit k).2.1 =
      Status.ok ∧
    (bbGet (writerRun bfBits threshold ops).dst
      (writerRun bfBits threshold ops).dst.length rInit k).2.2.1 =
      none := by
  have hdst : (writerRun bfBits threshold ops).dst =
      layoutFile bfBits (allBlocks threshold ops) := by
    rw [writerRun_eq]
  rw [hdst]
  set blks := allBlocks threshold ops with hblks
  have hops : blks.flatten = ops := allBlocks_flatten threshold ops
  have hmiss : ∀ i (hi : i < blks.length), 0 ≤ i →
      k ∉ (blks.get ⟨i, hi⟩).map Prod.fst := by
    intro i hi _ hk
    rw [List.mem_map] at hk
    obtain ⟨e, he, hek⟩ := hk
    have hef : e ∈ blks.flatten :=
      List.mem_flatten.mpr ⟨blks.get ⟨i, hi⟩, List.get_mem blks i hi, he⟩
    rw [hops] at hef
    exact hnotin (hek ▸ List.mem_map_of_mem Prod.fst hef)
  have hasm := bbGet_layout bfBits blks k hsz
  have hm := getLoop_miss bfBits blks k (by omega) blks.length 0
    (by omega) hmiss
  exact ⟨hasm.1.trans hm.1, hasm.2.trans hm.2⟩

/-- Counterexample to C3 as stated: a file finished with zero records.  Get
on it leaves the output unset but returns Status.ok, not NotFound — the
claimed not-found result does not occur. -/
theorem c3_counterexample :
    (bbGet (writerRun 8 16 []).dst (writerRun 8 16 []).dst.length rInit
      [42]).2.1 = Status.ok ∧
    (bbGet (writerRun 8 16 []).dst (writerRun 8 16 []).dst.length rInit
      [42]).2.2.1 = none ∧
    Status.ok ≠ Status.notFound := by
  have hdst : (writerRun 8 16 []).dst = layoutFile 8 (allBlocks 16 []) := by
    rw [writerRun_eq]
  rw [hdst]
  have hasm := bbGet_layout 8 (allBlocks 16 []) [42] (by decide)
  have hlen : (allBlocks 16 []).length = 0 := by decide
  have hm := getLoop_miss 8 (allBlocks 16 []) [42] (by decide)
    (allBlocks 16 []).length 0 (by omega)
    (by intro i hi; omega)
  exact ⟨hasm.1.trans hm.1, hasm.2.trans hm.2, by decide⟩

/-- Witness for the amended C3: a one-record file probed with a key that was
never inserted answers OK with the output unset. -/
theorem c3_get_absent_witness :
    ([2] ∉ ([([1], [7])] : List (Bytes × Bytes)).map Prod.fst) ∧
    (dstOfBlks (allBlocks 16 [([1], [7])])).length +
      (filtOfBlks 8 (allBlocks 16 [([1], [7])])).length +
      (pairsEnc (pairsOf 8 (allBlocks 16 [([1], [7])]))).length < 2 ^ 64 ∧
    ((bbGet (writerRun 8 16 [([1], [7])]).dst
        (writerRun 8 16 [([1], [7])]).dst.length rInit [2]).2.1 =
        Status.ok ∧
     (bbGet (writerRun 8 16 [([1], [7])]).dst
        (writerRun 8 16 [([1], [7])]).dst.length rInit [2]).2.2.1 =
        none) :=
  ⟨by decide, by decide,
   c3_get_absent 8 16 [([1], [7])] [2] (by decide) (by decide)⟩

/-- C10: the reader loads the footer, filter stream and index stream at most
once.  After the first MaybeLoadCache completes — successfully or with an
error — a subsequent MaybeLoadCache issues no positional reads and returns
the latched state unchanged; and when the first load failed, a subsequent
Get issues no reads at all and returns the same latched non-OK status. -/
theorem c10_load_once (file : Bytes) (srcSz : Nat) (k : Bytes) :
    maybeLoadCache file srcSz ((maybeLoadCache file srcSz rInit).1) =
      ((maybeLoadCache file srcSz rInit).1, []) ∧
    ((maybeLoadCache file srcSz rInit).1.cacheStatus ≠ Status.ok →
      bbGet file srcSz ((maybeLoadCache file srcSz rInit).1) k =
        ((maybeLoadCache file srcSz rInit).1,
         ((maybeLoadCache file srcSz rInit).1.cacheStatus, none, []))) := by
  have hinv : (maybeLoadCache file srcSz rInit).1.cacheStatus ≠ Status.ok ∨
      (maybeLoadCache file srcSz rInit).1.cacheContents ≠ [] := by
    rw [maybeLoadCache]
    rw [if_neg (by simp [rInit])]
    by_cases h1 : srcSz < 2 * kMaxEncodedLength
    · rw [if_pos h1]
      left
      simp
    · rw [if_neg h1]
      by_cases h2 : (readRaw file (srcSz - 2 * kMaxEncodedLength)
          (2 * kMaxEncodedLength)).length ≠ 2 * kMaxEncodedLength
      · rw [if_pos h2]
        left
        simp
      · rw [if_neg h2]
        simp only []
        rw [loadIndexesAndFilters]
        cases hdec1 : handleDec (readRaw file
            (srcSz - 2 * kMaxEncodedLength) (2 * kMaxEncodedLength)) with
        | none =>
          left
          simp
        | some pr1 =>
          cases hdec2 : handleDec pr1.2 with
          | none =>
            left
            simp [hdec2]
          | some pr2 =>
            simp only [hdec2]
            by_cases h3 : (readRaw file pr1.1.1 (pr1.1.2 + pr2.1.2)).length ≠
                pr1.1.2 + pr2.1.2
            · rw [if_pos h3]
              left
              simp
            · rw [if_neg h3]
              by_cases h4 : ((readRaw file pr1.1.1
                  (pr1.1.2 + pr2.1.2)).drop pr1.1.2).length < 16
              · rw [if_pos h4]
                left
                simp
              · rw [if_neg h4]
                right
                simp only [ne_eq]
                intro hc
                rw [hc] at h4
                simp at h4
  have hsecond : maybeLoadCache file srcSz
      ((maybeLoadCache file srcSz rInit).1) =
      ((maybeLoadCache file srcSz rInit).1, []) := by
    rw [maybeLoadCache]
    rw [if_pos hinv]
  refine ⟨hsecond, ?_⟩
  intro hfail
  simp only [bbGet, hsecond]
  rw [if_pos hfail]

/-- Witness for C10: an empty source (too short for a footer).  The first
load latches a Corruption status; the second load issues no reads and a Get
returns the latched status with no reads. -/
theorem c10_load_once_witness :
    (maybeLoadCache [] 0 ((maybeLoadCache [] 0 rInit).1) =
      ((maybeLoadCache [] 0 rInit).1, []) ∧
      bbGet [] 0 ((maybeLoadCache [] 0 rInit).1) [3] =
        ((maybeLoadCache [] 0 rInit).1,
         ((maybeLoadCache [] 0 rInit).1.cacheStatus, none, []))) ∧
    (maybeLoadCache [] 0 rInit).1.cacheStatus ≠ Status.ok :=
  ⟨⟨(c10_load_once [] 0 [3]).1, (c10_load_once [] 0 [3]).2 (by decide)⟩,
   by decide⟩

/-- Witness for C4: a single outstanding compaction with ticket 1 appends,
and the resulting append log is exactly the one-element increasing list. -/
theorem ticket_append_order_witness :
    ({ pending := (ticketInit [1]).pending.erase 1, completed := 1,
       appended := (ticketInit [1]).appended ++ [1] } : TicketState).appended =
      List.range' 1 1 ∧
    List.Pairwise (fun a b => a < b)
      ({ pending := (ticketInit [1]).pending.erase 1, completed := 1,
         appended := (ticketInit [1]).appended ++ [1] } : TicketState).appended :=
  ticket_append_order [1] _
    (Relation.ReflTransGen.single
      (TicketStep.append (ticketInit [1]) 1 (by decide) rfl))

end Plfsio
